import Mathlib

/-!
# Calculator core of `src/main.go`

Shallow embedding of `evaluate`, `evaluateManually`, `infixToPostfix` and
`isDigit`, followed by the properties proved about them.

Conventions of the embedding

* A Go `string` is a sequence of bytes.  It is modelled as `List Char`, one
  `Char` per byte (`rune(expr[i])` is the rune whose code is the byte), so
  `len(expr)` is the length of the list.  For ASCII text `String.toList`
  gives exactly the bytes.
* A Go slice used as a stack (`append` pushes, `s[len(s)-1]` is the top) is a
  list whose head is the top of the stack.  The `output` slice is a list in
  the order of the slice.
* A Go `(value, error)` result is an `Except CalcError value`.
* `float64`, `strconv.ParseFloat` and `fmt.Sprintf("%v", _)` belong to the Go
  library, not to the repository: the evaluator takes them as a parameter
  (`Float64Lib`).
-/

namespace Calc

/-- The errors the core returns, one constructor per message. -/
inductive CalcError where
  /-- Message `expression too long` (line 61). -/
  | tooLong
  /-- Message `invalid expression` (line 84). -/
  | invalidExpression
  /-- Message `invalid number` (line 92). -/
  | invalidNumber
  /-- Message `division by zero` (line 104). -/
  | divisionByZero
  /-- Message `invalid expression final` (line 114). -/
  | invalidExpressionFinal
  /-- Message `mismatched parentheses` (line 155). -/
  | mismatchedParentheses
  /-- Message `invalid character: ` followed by `string(ch)` (line 168); the
  constructor keeps the rune `ch`. -/
  | invalidCharacter (ch : Char)
  /-- Message `mismatched parentheses in the end` (line 175). -/
  | mismatchedParenthesesAtEnd
  /-- The error of `strconv.ParseFloat` itself, returned unchanged by the last
  line of `evaluateManually` (line 116); the constructor keeps the text that
  failed to parse. -/
  | parseFloatError (s : List Char)
  deriving DecidableEq, Repr

deriving instance DecidableEq for Except

/-- A token of the postfix sequence: a Go string. -/
abbrev Token := List Char

/-- Source `isDigit` (lines 182-184). -/
def isDigit (ch : Char) : Bool :=
  (decide ('0' ≤ ch) && decide (ch ≤ '9')) || ch == '.'

/-- The closure `precedence` of `infixToPostfix` (lines 122-130). -/
def precedence (op : Char) : Nat :=
  if op = '+' ∨ op = '-' then 1
  else if op = '*' ∨ op = '/' then 2
  else 0

/-- Go conversion `string(r)` of a rune to its UTF-8 encoding. -/
def runeString (r : Char) : Token :=
  let n := r.toNat
  if n < 0x80 then [r]
  else if n < 0x800 then [Char.ofNat (0xC0 + n / 64), Char.ofNat (0x80 + n % 64)]
  else if n < 0x10000 then
    [Char.ofNat (0xE0 + n / 4096), Char.ofNat (0x80 + n / 64 % 64), Char.ofNat (0x80 + n % 64)]
  else
    [Char.ofNat (0xF0 + n / 262144), Char.ofNat (0x80 + n / 4096 % 64),
     Char.ofNat (0x80 + n / 64 % 64), Char.ofNat (0x80 + n % 64)]

/-- The inner loop of the literal branch (lines 136-139): while the next byte
is a digit or `.`, append it to `num`.  Returns the literal and the unread
input. -/
def readNumber : Token → List Char → Token × List Char
  | num, [] => (num, [])
  | num, c :: rest =>
    if isDigit c || c == '.' then readNumber (num ++ [c]) rest else (num, c :: rest)

/-- The loop of the `)` branch (lines 144-153): pop operators to the output
until a `(` is popped.  Returns `found`, the stack and the output. -/
def popToParen : List Char → List Token → Bool × List Char × List Token
  | [], output => (false, [], output)
  | top :: stack, output =>
    if top = '(' then (true, stack, output)
    else popToParen stack (output ++ [runeString top])

/-- The loop of the operator branch (lines 158-165): pop operators to the
output until the stack is empty, its top is `(`, or `ch` has a strictly
greater precedence than the top. -/
def popOperators (ch : Char) : List Char → List Token → List Char × List Token
  | [], output => ([], output)
  | top :: stack, output =>
    if top = '(' ∨ precedence ch > precedence top then (top :: stack, output)
    else popOperators ch stack (output ++ [runeString top])

/-- The final loop (lines 171-178): pop everything to the output, failing on a
parenthesis. -/
def drain : List Char → List Token → Except CalcError (List Token)
  | [], output => .ok output
  | top :: stack, output =>
    if top = '(' ∨ top = ')' then .error .mismatchedParenthesesAtEnd
    else drain stack (output ++ [runeString top])

/-- The scan loop of `infixToPostfix` (lines 131-170) over the unread input
`expr[i:]`, with the output and the operator stack.  Each iteration uses one
unit of fuel; `none` means the fuel ran out before the input did. -/
def scanLoop : Nat → List Char → List Token → List Char →
    Option (Except CalcError (List Token × List Char))
  | _, [], output, stack => some (.ok (output, stack))
  | 0, _ :: _, _, _ => none
  | fuel + 1, ch :: rest, output, stack =>
    if isDigit ch then
      let r := readNumber [ch] rest
      scanLoop fuel r.2 (output ++ [r.1]) stack
    else if ch = '(' then
      scanLoop fuel rest output (ch :: stack)
    else if ch = ')' then
      match popToParen stack output with
      | (true, stack', output') => scanLoop fuel rest output' stack'
      | (false, _, _) => some (.error .mismatchedParentheses)
    else if ch = '+' ∨ ch = '-' ∨ ch = '*' ∨ ch = '/' then
      let r := popOperators ch stack output
      scanLoop fuel rest r.2 (ch :: r.1)
    else
      some (.error (.invalidCharacter ch))

/-- Source `infixToPostfix` (lines 119-180): the scan, with one unit of fuel
per byte of input, then the final drain. -/
def infixToPostfix (expr : List Char) : Option (Except CalcError (List Token)) :=
  match scanLoop expr.length expr [] [] with
  | none => none
  | some (.error e) => some (.error e)
  | some (.ok (output, stack)) => some (drain stack output)

/-- The part of the Go library the evaluator uses: the type `float64`, its
arithmetic, `strconv.ParseFloat(_, 64)` and `fmt.Sprintf("%v", _)`. -/
structure Float64Lib where
  /-- The type `float64`. -/
  F : Type
  /-- The zero value, which `var res float64` declares (line 94). -/
  zero : F
  /-- Call `strconv.ParseFloat(s, 64)`: `some v` when the returned error is
  `nil`, `none` otherwise. -/
  parseFloat : List Char → Option F
  /-- Call `fmt.Sprintf("%v", v)`. -/
  sprint : F → List Char
  /-- Go `a + b`. -/
  add : F → F → F
  /-- Go `a - b`. -/
  sub : F → F → F
  /-- Go `a * b`. -/
  mul : F → F → F
  /-- Go `a / b`. -/
  div : F → F → F
  /-- Go `b == 0`. -/
  isZero : F → Bool

/-- The inner `switch token` of `evaluateManually` (lines 94-107): the value
of `res`, or the division-by-zero error. -/
def applyOperator (lib : Float64Lib) (token : Token) (a b : lib.F) : Except CalcError lib.F :=
  if token = ['+'] then .ok (lib.add a b)
  else if token = ['-'] then .ok (lib.sub a b)
  else if token = ['*'] then .ok (lib.mul a b)
  else if token = ['/'] then
    if lib.isZero b then .error .divisionByZero else .ok (lib.div a b)
  else .ok lib.zero

/-- The token loop of `evaluateManually` (lines 80-112) over the remaining
tokens, with the stack of strings. -/
def evalTokens (lib : Float64Lib) : List Token → List Token → Except CalcError (List Token)
  | [], stack => .ok stack
  | token :: rest, stack =>
    if token = ['+'] ∨ token = ['-'] ∨ token = ['*'] ∨ token = ['/'] then
      match stack with
      | bStr :: aStr :: stack' =>
        match lib.parseFloat aStr, lib.parseFloat bStr with
        | some a, some b =>
          match applyOperator lib token a b with
          | .ok res => evalTokens lib rest (lib.sprint res :: stack')
          | .error e => .error e
        | _, _ => .error .invalidNumber
      | _ => .error .invalidExpression
    else
      evalTokens lib rest (token :: stack)

/-- The evaluator proper: lines 75 and 80-116 of `evaluateManually`, applied
to a postfix sequence. -/
def evaluatePostfix (lib : Float64Lib) (tokens : List Token) : Except CalcError lib.F :=
  match evalTokens lib tokens [] with
  | .error e => .error e
  | .ok [s] =>
    match lib.parseFloat s with
    | some v => .ok v
    | none => .error (.parseFloatError s)
  | .ok _ => .error .invalidExpressionFinal

/-- Source `evaluateManually` (lines 74-117). -/
def evaluateManually (lib : Float64Lib) (expr : List Char) : Option (Except CalcError lib.F) :=
  match infixToPostfix expr with
  | none => none
  | some (.error e) => some (.error e)
  | some (.ok tokens) => some (evaluatePostfix lib tokens)

/-- Source `simpleEvaluate` (lines 70-72). -/
def simpleEvaluate (lib : Float64Lib) (expr : List Char) : Option (Except CalcError lib.F) :=
  evaluateManually lib expr

/-- Call `strings.ReplaceAll(expr, " ", "")`: every space byte is dropped. -/
def removeSpaces (expr : List Char) : List Char :=
  expr.filter (fun c => c != ' ')

/-- Source `evaluate` (lines 58-68). -/
def evaluate (lib : Float64Lib) (expr : List Char) : Option (Except CalcError lib.F) :=
  let expr := removeSpaces expr
  if expr.length > 1000 then some (.error .tooLong)
  else
    match simpleEvaluate lib expr with
    | none => none
    | some (.error e) => some (.error e)
    | some (.ok val) => some (.ok val)

/-! ## An exact instance of the number library

Fractions in lowest terms with exact arithmetic.  It agrees with `float64`
on every computation whose operands and result are exactly representable and
print without an exponent; it serves as the concrete instance on which the
general statements are evaluated. -/

/-- A fraction `num / den`. -/
structure Frac where
  /-- Numerator. -/
  num : Int
  /-- Denominator. -/
  den : Nat
  deriving DecidableEq, Repr

/-- Reduce to lowest terms. -/
def Frac.norm (n : Int) (d : Nat) : Frac :=
  let g := Nat.gcd n.natAbs d
  if g = 0 then ⟨0, 1⟩ else ⟨n / (g : Int), d / g⟩

/-- The integer `n` as a fraction. -/
def Frac.ofInt (n : Int) : Frac := ⟨n, 1⟩

/-- Sum. -/
def Frac.add (a b : Frac) : Frac := Frac.norm (a.num * b.den + b.num * a.den) (a.den * b.den)

/-- Difference. -/
def Frac.sub (a b : Frac) : Frac := Frac.norm (a.num * b.den - b.num * a.den) (a.den * b.den)

/-- Product. -/
def Frac.mul (a b : Frac) : Frac := Frac.norm (a.num * b.num) (a.den * b.den)

/-- Quotient. -/
def Frac.div (a b : Frac) : Frac :=
  Frac.norm (a.num * b.den * Int.sign b.num) (a.den * b.num.natAbs)

/-- Value of a run of decimal digits read after `acc`; `none` on any other byte. -/
def digitsValue : Nat → List Char → Option Nat
  | acc, [] => some acc
  | acc, c :: cs =>
    if '0' ≤ c ∧ c ≤ '9' then digitsValue (acc * 10 + (c.toNat - '0'.toNat)) cs else none

/-- Unsigned decimal text `ddd`, `ddd.ddd`, `ddd.` or `.ddd` with at least one
digit. -/
def parseUnsigned (s : List Char) : Option Frac :=
  let ip := s.takeWhile (fun c => c != '.')
  let fp := (s.dropWhile (fun c => c != '.')).drop 1
  if ip.length + fp.length = 0 then none
  else
    match digitsValue 0 (ip ++ fp) with
    | some n => some (Frac.norm n (10 ^ fp.length))
    | none => none

/-- Decimal text with an optional sign. -/
def parseDecimal : List Char → Option Frac
  | '-' :: s => (parseUnsigned s).map (fun q => ⟨-q.num, q.den⟩)
  | '+' :: s => parseUnsigned s
  | s => parseUnsigned s

/-- Up to `fuel` decimal places of `r / d`, for `r < d`. -/
def fracDigits : Nat → Nat → Nat → List Char
  | 0, _, _ => []
  | fuel + 1, r, d =>
    if r = 0 then [] else Char.ofNat ('0'.toNat + r * 10 / d) :: fracDigits fuel (r * 10 % d) d

/-- Decimal text of a fraction: sign, integer part and up to 17 decimal places. -/
def printDecimal (q : Frac) : List Char :=
  let a := q.num.natAbs
  let sign := if q.num < 0 then ['-'] else []
  let fd := fracDigits 17 (a % q.den) q.den
  sign ++ (Nat.repr (a / q.den)).toList ++ (if fd = [] then [] else '.' :: fd)

/-- The exact instance. -/
@[reducible] def exactLib : Float64Lib where
  F := Frac
  zero := Frac.ofInt 0
  parseFloat := parseDecimal
  sprint := printDecimal
  add := Frac.add
  sub := Frac.sub
  mul := Frac.mul
  div := Frac.div
  isZero := fun q => q.num == 0

/-! ## The grammar of well-formed expressions

`E ::= E+T | E-T | T`, `T ::= T*F | T/F | F`, `F ::= literal | (E)`:
one constructor per production. -/

/-- The nonterminals. -/
inductive NT where
  | E
  | T
  | F
  deriving DecidableEq, Repr

/-- Parse trees of the grammar, indexed by the nonterminal they derive from. -/
inductive Syn : NT → Type where
  /-- Production `E ::= E+T`. -/
  | add : Syn .E → Syn .T → Syn .E
  /-- Production `E ::= E-T`. -/
  | sub : Syn .E → Syn .T → Syn .E
  /-- Production `E ::= T`. -/
  | term : Syn .T → Syn .E
  /-- Production `T ::= T*F`. -/
  | mul : Syn .T → Syn .F → Syn .T
  /-- Production `T ::= T/F`. -/
  | div : Syn .T → Syn .F → Syn .T
  /-- Production `T ::= F`. -/
  | factor : Syn .F → Syn .T
  /-- Production `F ::= literal`. -/
  | lit : List Char → Syn .F
  /-- Production `F ::= (E)`. -/
  | paren : Syn .E → Syn .F

/-- A numeric literal as the scanner reads it: a non-empty run of digits and
`.`. -/
def IsLiteral (s : List Char) : Prop := s ≠ [] ∧ ∀ c ∈ s, isDigit c = true

/-- The text a parse tree derives. -/
def Syn.text : {n : NT} → Syn n → List Char
  | _, .add e t => e.text ++ '+' :: t.text
  | _, .sub e t => e.text ++ '-' :: t.text
  | _, .term t => t.text
  | _, .mul t f => t.text ++ '*' :: f.text
  | _, .div t f => t.text ++ '/' :: f.text
  | _, .factor f => f.text
  | _, .lit s => s
  | _, .paren e => '(' :: e.text ++ [')']

/-- Every literal of the tree is a non-empty run of digits and `.`. -/
def Syn.WellFormed : {n : NT} → Syn n → Prop
  | _, .add e t => e.WellFormed ∧ t.WellFormed
  | _, .sub e t => e.WellFormed ∧ t.WellFormed
  | _, .term t => t.WellFormed
  | _, .mul t f => t.WellFormed ∧ f.WellFormed
  | _, .div t f => t.WellFormed ∧ f.WellFormed
  | _, .factor f => f.WellFormed
  | _, .lit s => IsLiteral s
  | _, .paren e => e.WellFormed

/-- Post-order traversal of a parse tree: the operands of a node, left then
right, then its operator; parentheses leave no token. -/
def Syn.rpn : {n : NT} → Syn n → List Token
  | _, .add e t => e.rpn ++ t.rpn ++ [['+']]
  | _, .sub e t => e.rpn ++ t.rpn ++ [['-']]
  | _, .term t => t.rpn
  | _, .mul t f => t.rpn ++ f.rpn ++ [['*']]
  | _, .div t f => t.rpn ++ f.rpn ++ [['/']]
  | _, .factor f => f.rpn
  | _, .lit s => [s]
  | _, .paren e => e.rpn

/-- Value of a binary node from the values of its operands. -/
def nodeValue {α : Type} (f : α → α → α) : Option α → Option α → Option α
  | some a, some b => some (f a b)
  | _, _ => none

/-- Value of a parse tree: a literal is what `ParseFloat` reads, a node is
`a+b`, `a-b`, `a*b` or `a/b` for `a` the value of its left operand and `b`
that of its right operand.  There is none when a literal does not parse. -/
def Syn.value (lib : Float64Lib) : {n : NT} → Syn n → Option lib.F
  | _, .add e t => nodeValue lib.add (e.value lib) (t.value lib)
  | _, .sub e t => nodeValue lib.sub (e.value lib) (t.value lib)
  | _, .term t => t.value lib
  | _, .mul t f => nodeValue lib.mul (t.value lib) (f.value lib)
  | _, .div t f => nodeValue lib.div (t.value lib) (f.value lib)
  | _, .factor f => f.value lib
  | _, .lit s => lib.parseFloat s
  | _, .paren e => e.value lib

/-- Every literal of the tree parses as a number. -/
def Syn.LiteralsParse (lib : Float64Lib) : {n : NT} → Syn n → Prop
  | _, .add e t => e.LiteralsParse lib ∧ t.LiteralsParse lib
  | _, .sub e t => e.LiteralsParse lib ∧ t.LiteralsParse lib
  | _, .term t => t.LiteralsParse lib
  | _, .mul t f => t.LiteralsParse lib ∧ f.LiteralsParse lib
  | _, .div t f => t.LiteralsParse lib ∧ f.LiteralsParse lib
  | _, .factor f => f.LiteralsParse lib
  | _, .lit s => (lib.parseFloat s).isSome
  | _, .paren e => e.LiteralsParse lib

/-- No division of the tree has a right operand whose value is zero. -/
def Syn.NoZeroDivisor (lib : Float64Lib) : {n : NT} → Syn n → Prop
  | _, .add e t => e.NoZeroDivisor lib ∧ t.NoZeroDivisor lib
  | _, .sub e t => e.NoZeroDivisor lib ∧ t.NoZeroDivisor lib
  | _, .term t => t.NoZeroDivisor lib
  | _, .mul t f => t.NoZeroDivisor lib ∧ f.NoZeroDivisor lib
  | _, .div t f => t.NoZeroDivisor lib ∧ f.NoZeroDivisor lib ∧
      ∀ b, f.value lib = some b → lib.isZero b = false
  | _, .factor f => f.NoZeroDivisor lib
  | _, .lit _ => True
  | _, .paren e => e.NoZeroDivisor lib

/-- The value of every operator node of the tree is read back unchanged from
its `%v` text: `ParseFloat(Sprintf("%v", v)) = v`. -/
def Syn.RoundTrips (lib : Float64Lib) : {n : NT} → Syn n → Prop
  | _, .add e t => e.RoundTrips lib ∧ t.RoundTrips lib ∧
      ∀ v, (Syn.add e t).value lib = some v → lib.parseFloat (lib.sprint v) = some v
  | _, .sub e t => e.RoundTrips lib ∧ t.RoundTrips lib ∧
      ∀ v, (Syn.sub e t).value lib = some v → lib.parseFloat (lib.sprint v) = some v
  | _, .term t => t.RoundTrips lib
  | _, .mul t f => t.RoundTrips lib ∧ f.RoundTrips lib ∧
      ∀ v, (Syn.mul t f).value lib = some v → lib.parseFloat (lib.sprint v) = some v
  | _, .div t f => t.RoundTrips lib ∧ f.RoundTrips lib ∧
      ∀ v, (Syn.div t f).value lib = some v → lib.parseFloat (lib.sprint v) = some v
  | _, .factor f => f.RoundTrips lib
  | _, .lit _ => True
  | _, .paren e => e.RoundTrips lib

/-! ## Auxiliary notions used by the proofs -/

/-- The scan loop with exactly one unit of fuel per unread byte. -/
def scan (input : List Char) (output : List Token) (stack : List Char) :
    Option (Except CalcError (List Token × List Char)) :=
  scanLoop input.length input output stack

/-- The four operator bytes. -/
def IsOperator (c : Char) : Prop := c = '+' ∨ c = '-' ∨ c = '*' ∨ c = '/'

/-- Binding level of a nonterminal: the least precedence of an operator that
may be pending on the stack after a phrase of that nonterminal. -/
def NT.level : NT → Nat
  | .E => 1
  | .T => 2
  | .F => 3

/-- The stack on which a phrase of level `k` starts: empty, or topped by `(`
or by an operator of precedence below `k`. -/
def CtxOk (k : Nat) : List Char → Prop
  | [] => True
  | top :: _ => top = '(' ∨ precedence top < k

/-- The unread input does not start with a digit or `.`. -/
def NoDigitHead : List Char → Prop
  | [] => True
  | c :: _ => isDigit c = false

/-- On the decimal texts `a`, `b` and `c` the library computes `a op b = c`:
the texts read as numbers `x`, `y` and `z`, `op x y` is `z`, and `z` prints
as `c`. -/
def Float64Lib.Computes (lib : Float64Lib) (op : lib.F → lib.F → lib.F) (a b c : String) : Prop :=
  ∃ x y z, lib.parseFloat a.toList = some x ∧ lib.parseFloat b.toList = some y ∧
    lib.parseFloat c.toList = some z ∧ op x y = z ∧ lib.sprint z = c.toList

/-- The decimal text `a` reads as a number that is not zero. -/
def Float64Lib.ReadsNonZero (lib : Float64Lib) (a : String) : Prop :=
  ∃ x, lib.parseFloat a.toList = some x ∧ lib.isZero x = false

/-- The decimal text `a` reads as a number that is zero. -/
def Float64Lib.ReadsZero (lib : Float64Lib) (a : String) : Prop :=
  ∃ x, lib.parseFloat a.toList = some x ∧ lib.isZero x = true

/-- Parse tree of `(2+3)*4-10/2.5`. -/
def sampleExpr : Syn .E :=
  .sub
    (.term (.mul (.factor (.paren (.add (.term (.factor (.lit ['2']))) (.factor (.lit ['3'])))))
      (.lit ['4'])))
    (.div (.factor (.lit ['1', '0'])) (.lit ['2', '.', '5']))

/-- The bytes the parser accepts: digits, `.`, the four operators and the two
parentheses. -/
def AllowedChar (c : Char) : Prop := isDigit c = true ∨ IsOperator c ∨ c = '(' ∨ c = ')'

/-- The operator stack holds only operators and `(`. -/
def StackOk (stack : List Char) : Prop := ∀ c ∈ stack, IsOperator c ∨ c = '('

/-- Scanning with `d` parentheses open, some `)` of the input finds none open. -/
def unbalanced : Nat → List Char → Bool
  | _, [] => false
  | d, c :: cs =>
    if c = '(' then unbalanced (d + 1) cs
    else if c = ')' then d == 0 || unbalanced (d - 1) cs
    else unbalanced d cs
instance (c : Char) : Decidable (IsOperator c) := by
  unfold IsOperator; infer_instance

instance (c : Char) : Decidable (AllowedChar c) := by
  unfold AllowedChar; infer_instance

/-- The input with every whitespace byte (space, tab, newline, carriage
return) dropped: what "strip all whitespace" asks for. -/
def removeWhitespace (expr : List Char) : List Char :=
  expr.filter (fun c => !c.isWhitespace)

/-- The operator stack at the head of each iteration of the scan loop, in
order, followed by the stack each pop loop leaves; the pop loops themselves
only pass through suffixes of these stacks. -/
def scanStacks : Nat → List Char → List Token → List Char → List (List Char)
  | _, [], _, stack => [stack]
  | 0, _ :: _, _, stack => [stack]
  | fuel + 1, ch :: rest, output, stack =>
    stack ::
      (if isDigit ch then
        let r := readNumber [ch] rest
        scanStacks fuel r.2 (output ++ [r.1]) stack
      else if ch = '(' then
        scanStacks fuel rest output (ch :: stack)
      else if ch = ')' then
        match popToParen stack output with
        | (true, stack', output') => stack' :: scanStacks fuel rest output' stack'
        | (false, stack', _) => [stack']
      else if ch = '+' ∨ ch = '-' ∨ ch = '*' ∨ ch = '/' then
        let r := popOperators ch stack output
        r.1 :: scanStacks fuel rest r.2 (ch :: r.1)
      else
        [])

/-- The token is one of the four operator tokens. -/
def isOperatorToken (t : Token) : Bool :=
  t == ['+'] || t == ['-'] || t == ['*'] || t == ['/']

/-- The numeric-literal tokens of a token sequence, in order. -/
def literalTokens (tokens : List Token) : List Token :=
  tokens.filter (fun t => !isOperatorToken t)

/-- The maximal runs of digits and `.` of the input that follows, `cur` being
the run in progress. -/
def digitRunsFrom : List Char → List Char → List (List Char)
  | cur, [] => if cur = [] then [] else [cur]
  | cur, c :: cs =>
    if isDigit c then digitRunsFrom (cur ++ [c]) cs
    else if cur = [] then digitRunsFrom [] cs
    else cur :: digitRunsFrom [] cs

/-- The maximal runs of digits and `.` of the input, left to right. -/
def digitRuns (input : List Char) : List (List Char) :=
  digitRunsFrom [] input

/-- No token of the sequence is a parenthesis. -/
def NoParenToken (tokens : List Token) : Prop := ['('] ∉ tokens ∧ [')'] ∉ tokens

/-! ## The evaluator on a stack of numbers

The evaluator as the specification words it: a numeric literal is parsed when
it is pushed, and results stay on the stack as numbers. -/

/-- The token loop on a stack of numbers: a literal pushes its parsed value
(`invalid number` when it does not parse); an operator pops `b` then `a`
(`invalid expression` when fewer than two values are there), computes `a+b`,
`a-b`, `a*b` or `a/b` (`division by zero` when `b == 0`) and pushes the
result. -/
def evalNative (lib : Float64Lib) : List Token → List lib.F → Except CalcError (List lib.F)
  | [], stack => .ok stack
  | token :: rest, stack =>
    if token = ['+'] ∨ token = ['-'] ∨ token = ['*'] ∨ token = ['/'] then
      match stack with
      | b :: a :: stack' =>
        match applyOperator lib token a b with
        | .ok res => evalNative lib rest (res :: stack')
        | .error e => .error e
      | _ => .error .invalidExpression
    else
      match lib.parseFloat token with
      | some v => evalNative lib rest (v :: stack)
      | none => .error .invalidNumber

/-- The evaluator on a stack of numbers: after the scan exactly one value must
remain, which is returned; otherwise `invalid expression final`. -/
def evaluatePostfixNative (lib : Float64Lib) (tokens : List Token) : Except CalcError lib.F :=
  match evalNative lib tokens [] with
  | .error e => .error e
  | .ok [v] => .ok v
  | .ok _ => .error .invalidExpressionFinal

/-- The numbers the evaluator on a stack of numbers computes, in order: the
result of each operator it applies. -/
def computedNumbers (lib : Float64Lib) : List Token → List lib.F → List lib.F
  | [], _ => []
  | token :: rest, stack =>
    if token = ['+'] ∨ token = ['-'] ∨ token = ['*'] ∨ token = ['/'] then
      match stack with
      | b :: a :: stack' =>
        match applyOperator lib token a b with
        | .ok res => res :: computedNumbers lib rest (res :: stack')
        | .error _ => []
      | _ => []
    else
      match lib.parseFloat token with
      | some v => computedNumbers lib rest (v :: stack)
      | none => []

/-! ## The code with checked indexing

A second, index-level embedding of the same functions, in which every index
expression and every slice expression of the source is evaluated with Go's
bounds check.  Slices are lists in slice order (`append` adds at the end);
the string is read by position. -/

/-- Outcome of a run of the index-level code. -/
inductive Run (α : Type) where
  /-- The function returned. -/
  | ret (a : α)
  /-- An index or slice expression was out of range: Go panics. -/
  | panic
  /-- The fuel of a loop ran out. -/
  | outOfFuel
  deriving DecidableEq, Repr

/-- Go `s[i]` for an index computed on `int`: `none` when `i` is out of range. -/
def index {α : Type} (s : List α) (i : Int) : Option α :=
  if 0 ≤ i then s[i.toNat]? else none

/-- Go `s[:hi]`: `none` when `hi` is out of range. -/
def sliceTo {α : Type} (s : List α) (hi : Int) : Option (List α) :=
  if 0 ≤ hi ∧ hi ≤ s.length then some (s.take hi.toNat) else none

/-- Lines 136-139 with checked reads; the reads `expr[i+1]` of the condition
and `expr[i]` after `i++` are the same position. -/
def readNumberChecked (expr : List Char) : Nat → Nat → Token → Run (Nat × Token)
  | 0, _, _ => .outOfFuel
  | fuel + 1, i, num =>
    if i + 1 < expr.length then
      match expr[i + 1]? with
      | none => .panic
      | some c =>
        if isDigit c || c == '.' then readNumberChecked expr fuel (i + 1) (num ++ [c])
        else .ret (i, num)
    else .ret (i, num)

/-- Lines 144-153 with checked `stack[len(stack)-1]` and `stack[:len(stack)-1]`. -/
def popToParenChecked : Nat → List Char → List Token → Run (Bool × List Char × List Token)
  | 0, _, _ => .outOfFuel
  | fuel + 1, stack, output =>
    if stack.length > 0 then
      match index stack ((stack.length : Int) - 1), sliceTo stack ((stack.length : Int) - 1) with
      | some top, some stack' =>
        if top = '(' then .ret (true, stack', output)
        else popToParenChecked fuel stack' (output ++ [runeString top])
      | _, _ => .panic
    else .ret (false, stack, output)

/-- Lines 158-165 with checked `stack[len(stack)-1]` and `stack[:len(stack)-1]`. -/
def popOperatorsChecked (ch : Char) : Nat → List Char → List Token → Run (List Char × List Token)
  | 0, _, _ => .outOfFuel
  | fuel + 1, stack, output =>
    if stack.length > 0 then
      match index stack ((stack.length : Int) - 1) with
      | none => .panic
      | some top =>
        if top = '(' ∨ precedence ch > precedence top then .ret (stack, output)
        else
          match sliceTo stack ((stack.length : Int) - 1) with
          | none => .panic
          | some stack' => popOperatorsChecked ch fuel stack' (output ++ [runeString top])
    else .ret (stack, output)

/-- Lines 171-179 with checked `stack[len(stack)-1]` and `stack[:len(stack)-1]`. -/
def drainChecked : Nat → List Char → List Token → Run (Except CalcError (List Token))
  | 0, _, _ => .outOfFuel
  | fuel + 1, stack, output =>
    if stack.length > 0 then
      match index stack ((stack.length : Int) - 1), sliceTo stack ((stack.length : Int) - 1) with
      | some top, some stack' =>
        if top = '(' ∨ top = ')' then .ret (.error .mismatchedParenthesesAtEnd)
        else drainChecked fuel stack' (output ++ [runeString top])
      | _, _ => .panic
    else .ret (.ok output)

/-- Lines 131-170 with checked `expr[i]`; the inner loops get as much fuel as
they have bytes or stack entries to go through, plus one. -/
def scanLoopChecked (expr : List Char) : Nat → Nat → List Token → List Char →
    Run (Except CalcError (List Token × List Char))
  | 0, _, _, _ => .outOfFuel
  | fuel + 1, i, output, stack =>
    if i < expr.length then
      match expr[i]? with
      | none => .panic
      | some ch =>
        if isDigit ch then
          match readNumberChecked expr expr.length i [ch] with
          | .ret (i', num) => scanLoopChecked expr fuel (i' + 1) (output ++ [num]) stack
          | .panic => .panic
          | .outOfFuel => .outOfFuel
        else if ch = '(' then
          scanLoopChecked expr fuel (i + 1) output (stack ++ [ch])
        else if ch = ')' then
          match popToParenChecked (stack.length + 1) stack output with
          | .ret (true, stack', output') => scanLoopChecked expr fuel (i + 1) output' stack'
          | .ret (false, _, _) => .ret (.error .mismatchedParentheses)
          | .panic => .panic
          | .outOfFuel => .outOfFuel
        else if ch = '+' ∨ ch = '-' ∨ ch = '*' ∨ ch = '/' then
          match popOperatorsChecked ch (stack.length + 1) stack output with
          | .ret (stack', output') => scanLoopChecked expr fuel (i + 1) output' (stack' ++ [ch])
          | .panic => .panic
          | .outOfFuel => .outOfFuel
        else
          .ret (.error (.invalidCharacter ch))
    else .ret (.ok (output, stack))

/-- Source `infixToPostfix` with checked indexing. -/
def infixToPostfixChecked (expr : List Char) : Run (Except CalcError (List Token)) :=
  match scanLoopChecked expr (expr.length + 1) 0 [] [] with
  | .ret (.ok (output, stack)) => drainChecked (stack.length + 1) stack output
  | .ret (.error e) => .ret (.error e)
  | .panic => .panic
  | .outOfFuel => .outOfFuel

/-- Lines 80-112 with checked `stack[len(stack)-1]`, `stack[len(stack)-2]` and
`stack[:len(stack)-2]`. -/
def evalTokensChecked (lib : Float64Lib) :
    List Token → List Token → Run (Except CalcError (List Token))
  | [], stack => .ret (.ok stack)
  | token :: rest, stack =>
    if token = ['+'] ∨ token = ['-'] ∨ token = ['*'] ∨ token = ['/'] then
      if stack.length < 2 then .ret (.error .invalidExpression)
      else
        match index stack ((stack.length : Int) - 1), index stack ((stack.length : Int) - 2),
          sliceTo stack ((stack.length : Int) - 2) with
        | some bStr, some aStr, some stack' =>
          match lib.parseFloat aStr, lib.parseFloat bStr with
          | some a, some b =>
            match applyOperator lib token a b with
            | .ok res => evalTokensChecked lib rest (stack' ++ [lib.sprint res])
            | .error e => .ret (.error e)
          | _, _ => .ret (.error .invalidNumber)
        | _, _, _ => .panic
    else
      evalTokensChecked lib rest (stack ++ [token])

/-- Source `evaluateManually` with checked indexing, `stack[0]` included. -/
def evaluateManuallyChecked (lib : Float64Lib) (expr : List Char) :
    Run (Except CalcError lib.F) :=
  match infixToPostfixChecked expr with
  | .ret (.error e) => .ret (.error e)
  | .panic => .panic
  | .outOfFuel => .outOfFuel
  | .ret (.ok tokens) =>
    match evalTokensChecked lib tokens [] with
    | .ret (.error e) => .ret (.error e)
    | .panic => .panic
    | .outOfFuel => .outOfFuel
    | .ret (.ok stack) =>
      if stack.length ≠ 1 then .ret (.error .invalidExpressionFinal)
      else
        match index stack 0 with
        | none => .panic
        | some s =>
          match lib.parseFloat s with
          | some v => .ret (.ok v)
          | none => .ret (.error (.parseFloatError s))

/-- Source `evaluate` with checked indexing. -/
def evaluateChecked (lib : Float64Lib) (expr : List Char) : Run (Except CalcError lib.F) :=
  let expr := removeSpaces expr
  if expr.length > 1000 then .ret (.error .tooLong)
  else evaluateManuallyChecked lib expr

/-! ## The scan loop: fuel and unfolding -/

theorem readNumber_length (rest : List Char) :
    ∀ num : Token, (readNumber num rest).2.length ≤ rest.length := by
  induction rest with
  | nil => intro num; simp [readNumber]
  | cons c rest ih =>
    intro num
    unfold readNumber
    split
    · exact Nat.le_succ_of_le (ih _)
    · exact Nat.le_refl _

theorem scanLoop_fuel (f : Nat) :
    ∀ (g : Nat) (input : List Char) (output : List Token) (stack : List Char),
      input.length ≤ f → f ≤ g →
      scanLoop g input output stack = scanLoop f input output stack := by
  induction f with
  | zero =>
    intro g input output stack hl _
    have : input = [] := List.eq_nil_of_length_eq_zero (Nat.le_zero.mp hl)
    subst this
    simp [scanLoop]
  | succ f ih =>
    intro g input output stack hl hg
    cases input with
    | nil => simp [scanLoop]
    | cons ch rest =>
      obtain ⟨g, rfl⟩ : ∃ g', g = g' + 1 := ⟨g - 1, by omega⟩
      have hrest : rest.length ≤ f := by simpa using hl
      have hg' : f ≤ g := by omega
      have hnum := readNumber_length rest [ch]
      simp only [scanLoop]
      split
      · exact ih g _ _ _ (by omega) hg'
      · split
        · exact ih g _ _ _ hrest hg'
        · split
          · split
            · exact ih g _ _ _ hrest hg'
            · rfl
          · split
            · exact ih g _ _ _ hrest hg'
            · rfl

theorem scan_nil (output : List Token) (stack : List Char) :
    scan [] output stack = some (.ok (output, stack)) := by
  simp [scan, scanLoop]

theorem scan_cons (ch : Char) (rest : List Char) (output : List Token) (stack : List Char) :
    scan (ch :: rest) output stack =
      if isDigit ch then
        scan (readNumber [ch] rest).2 (output ++ [(readNumber [ch] rest).1]) stack
      else if ch = '(' then
        scan rest output (ch :: stack)
      else if ch = ')' then
        match popToParen stack output with
        | (true, stack', output') => scan rest output' stack'
        | (false, _, _) => some (.error .mismatchedParentheses)
      else if ch = '+' ∨ ch = '-' ∨ ch = '*' ∨ ch = '/' then
        scan rest (popOperators ch stack output).2 (ch :: (popOperators ch stack output).1)
      else
        some (.error (.invalidCharacter ch)) := by
  have hnum := readNumber_length rest [ch]
  simp only [scan, List.length_cons, scanLoop]
  split
  · exact scanLoop_fuel _ _ _ _ _ (Nat.le_refl _) hnum
  · rfl

/-! ## The fuel of the scan is enough -/

theorem scan_isSome (n : Nat) :
    ∀ (input : List Char), input.length = n → ∀ (output : List Token) (stack : List Char),
      (scan input output stack).isSome = true := by
  induction n using Nat.strong_induction_on with
  | _ n ih =>
    intro input hlen output stack
    cases input with
    | nil => rw [scan_nil]; rfl
    | cons ch rest =>
      have hlt : rest.length < n := by simp at hlen; omega
      have hnum : (readNumber [ch] rest).2.length < n :=
        Nat.lt_of_le_of_lt (readNumber_length rest [ch]) hlt
      rw [scan_cons]
      split
      · exact ih _ hnum _ rfl _ _
      · split
        · exact ih _ hlt _ rfl _ _
        · split
          · split
            · exact ih _ hlt _ rfl _ _
            · rfl
          · split
            · exact ih _ hlt _ rfl _ _
            · rfl

theorem infixToPostfix_isSome (expr : List Char) : (infixToPostfix expr).isSome = true := by
  have h := scan_isSome expr.length expr rfl [] []
  have hdef : infixToPostfix expr =
      match scan expr [] [] with
      | none => none
      | some (.error e) => some (.error e)
      | some (.ok (output, stack)) => some (drain stack output) := rfl
  rw [hdef]
  cases hs : scan expr [] [] with
  | none => rw [hs] at h; cases h
  | some r =>
    cases r with
    | error e => rfl
    | ok p => rfl

theorem evaluate_isSome (lib : Float64Lib) (expr : List Char) :
    (evaluate lib expr).isSome = true := by
  unfold evaluate
  simp only
  split
  · rfl
  · have h := infixToPostfix_isSome (removeSpaces expr)
    unfold simpleEvaluate evaluateManually
    cases hp : infixToPostfix (removeSpaces expr) with
    | none => rw [hp] at h; cases h
    | some r =>
      cases r with
      | error e => rfl
      | ok tokens =>
        simp only
        cases evaluatePostfix lib tokens <;> rfl

/-! ## The loops on runs of digits and of operators -/

theorem runeString_operator {c : Char} (h : IsOperator c) : runeString c = [c] := by
  rcases h with rfl | rfl | rfl | rfl <;> rfl

theorem IsOperator.ne_open {c : Char} (h : IsOperator c) : c ≠ '(' := by
  rcases h with rfl | rfl | rfl | rfl <;> decide

theorem IsOperator.ne_close {c : Char} (h : IsOperator c) : c ≠ ')' := by
  rcases h with rfl | rfl | rfl | rfl <;> decide

theorem IsOperator.not_digit {c : Char} (h : IsOperator c) : isDigit c = false := by
  rcases h with rfl | rfl | rfl | rfl <;> decide

theorem readNumber_run (s rest : List Char) (hs : ∀ c ∈ s, isDigit c = true)
    (hrest : NoDigitHead rest) :
    ∀ num : Token, readNumber num (s ++ rest) = (num ++ s, rest) := by
  induction s with
  | nil =>
    intro num
    cases rest with
    | nil => simp [readNumber]
    | cons c rest =>
      have hc : isDigit c = false := hrest
      have hdot : (c == '.') = false := by
        cases hcd : (c == '.') with
        | false => rfl
        | true => simp [isDigit, hcd] at hc
      simp [readNumber, hc, hdot]
  | cons d s ih =>
    intro num
    have hd : isDigit d = true := hs d (List.mem_cons_self _ _)
    have := ih (fun c hc => hs c (List.mem_cons_of_mem _ hc)) (num ++ [d])
    simp [readNumber, hd, this]

theorem popToParen_operators (ops stack : List Char) (h : ∀ c ∈ ops, IsOperator c) :
    ∀ output : List Token,
      popToParen (ops ++ '(' :: stack) output = (true, stack, output ++ ops.map (fun c => [c])) := by
  induction ops with
  | nil => intro output; simp [popToParen]
  | cons c ops ih =>
    intro output
    have hc := h c (List.mem_cons_self _ _)
    have := ih (fun d hd => h d (List.mem_cons_of_mem _ hd)) (output ++ [[c]])
    simp [popToParen, hc.ne_open, runeString_operator hc, this]

theorem popOperators_operators (ch : Char) (ops stack : List Char)
    (h : ∀ c ∈ ops, IsOperator c ∧ precedence ch ≤ precedence c)
    (hctx : CtxOk (precedence ch) stack) :
    ∀ output : List Token,
      popOperators ch (ops ++ stack) output = (stack, output ++ ops.map (fun c => [c])) := by
  induction ops with
  | nil =>
    intro output
    cases stack with
    | nil => simp [popOperators]
    | cons top stack =>
      have : top = '(' ∨ precedence ch > precedence top := hctx
      simp [popOperators, this]
  | cons c ops ih =>
    intro output
    have hc := h c (List.mem_cons_self _ _)
    have := ih (fun d hd => h d (List.mem_cons_of_mem _ hd)) (output ++ [[c]])
    have hnot : ¬ (c = '(' ∨ precedence ch > precedence c) := by
      rintro (h1 | h1)
      · exact hc.1.ne_open h1
      · exact absurd hc.2 (Nat.not_le.mpr h1)
    simp [popOperators, hnot, runeString_operator hc.1, this]

theorem drain_operators (ops : List Char) (h : ∀ c ∈ ops, IsOperator c) :
    ∀ output : List Token, drain ops output = .ok (output ++ ops.map (fun c => [c])) := by
  induction ops with
  | nil => intro output; simp [drain]
  | cons c ops ih =>
    intro output
    have hc := h c (List.mem_cons_self _ _)
    have := ih (fun d hd => h d (List.mem_cons_of_mem _ hd)) (output ++ [[c]])
    have hnot : ¬ (c = '(' ∨ c = ')') := by
      rintro (h1 | h1)
      · exact hc.ne_open h1
      · exact hc.ne_close h1
    simp [drain, hnot, runeString_operator hc, this]

theorem CtxOk.mono {k m : Nat} (hkm : k ≤ m) : ∀ {stack : List Char}, CtxOk k stack → CtxOk m stack
  | [], _ => trivial
  | _ :: _, h => h.imp id (fun h => Nat.lt_of_lt_of_le h hkm)

/-! ## The scan of a phrase of the grammar -/

theorem scan_literal (s rest : List Char) (hne : s ≠ []) (hs : ∀ c ∈ s, isDigit c = true)
    (hrest : NoDigitHead rest) (output : List Token) (stack : List Char) :
    scan (s ++ rest) output stack = scan rest (output ++ [s]) stack := by
  cases s with
  | nil => exact absurd rfl hne
  | cons d s =>
    have hd : isDigit d = true := hs d (List.mem_cons_self _ _)
    have hrun := readNumber_run s rest (fun c hc => hs c (List.mem_cons_of_mem _ hc)) hrest [d]
    rw [List.cons_append, scan_cons, if_pos hd, hrun]
    rfl

theorem scan_open (rest : List Char) (output : List Token) (stack : List Char) :
    scan ('(' :: rest) output stack = scan rest output ('(' :: stack) := by
  rw [scan_cons]; rfl

theorem scan_close (rest : List Char) (output : List Token) (ops stack : List Char)
    (h : ∀ c ∈ ops, IsOperator c) :
    scan (')' :: rest) output (ops ++ '(' :: stack) =
      scan rest (output ++ ops.map (fun c => [c])) stack := by
  rw [scan_cons, popToParen_operators ops stack h]; rfl

theorem scan_operator (ch : Char) (hch : IsOperator ch) (rest : List Char) (output : List Token)
    (ops stack : List Char) (h : ∀ c ∈ ops, IsOperator c ∧ precedence ch ≤ precedence c)
    (hctx : CtxOk (precedence ch) stack) :
    scan (ch :: rest) output (ops ++ stack) =
      scan rest (output ++ ops.map (fun c => [c])) (ch :: stack) := by
  rw [scan_cons, popOperators_operators ch ops stack h hctx, if_neg (by simp [hch.not_digit]),
    if_neg hch.ne_open, if_neg hch.ne_close, if_pos (show ch = '+' ∨ ch = '-' ∨ ch = '*' ∨ ch = '/' from hch)]

theorem scan_syn {n : NT} (x : Syn n) :
    x.WellFormed → ∀ (rest : List Char) (output : List Token) (stack : List Char),
      CtxOk n.level stack → NoDigitHead rest →
      ∃ (done : List Token) (pending : List Char),
        x.rpn = done ++ pending.map (fun c => [c]) ∧
        (∀ c ∈ pending, IsOperator c ∧ n.level ≤ precedence c) ∧
        scan (x.text ++ rest) output stack = scan rest (output ++ done) (pending ++ stack) := by
  induction x with
  | add e t ihe iht =>
    rintro ⟨he, ht⟩ rest output stack hctx hrest
    obtain ⟨d1, p1, hr1, hp1, hs1⟩ := ihe he ('+' :: (t.text ++ rest)) output stack hctx rfl
    obtain ⟨d2, p2, hr2, hp2, hs2⟩ := iht ht rest (output ++ e.rpn) ('+' :: stack)
      (Or.inr (by decide)) hrest
    refine ⟨e.rpn ++ d2, p2 ++ ['+'], ?_, ?_, ?_⟩
    · simp [Syn.rpn, hr2]
    · intro c hc
      rcases List.mem_append.mp hc with hc | hc
      · exact ⟨(hp2 c hc).1, Nat.le_trans (by decide) (hp2 c hc).2⟩
      · rw [List.mem_singleton.mp hc]; exact ⟨Or.inl rfl, by decide⟩
    · have hop := scan_operator '+' (Or.inl rfl) (t.text ++ rest) (output ++ d1) p1 stack
        (fun c hc => hp1 c hc) hctx
      simp only [Syn.text, List.append_assoc, List.cons_append]
      rw [hs1, hop, List.append_assoc, ← hr1, hs2]
      simp
  | sub e t ihe iht =>
    rintro ⟨he, ht⟩ rest output stack hctx hrest
    obtain ⟨d1, p1, hr1, hp1, hs1⟩ := ihe he ('-' :: (t.text ++ rest)) output stack hctx rfl
    obtain ⟨d2, p2, hr2, hp2, hs2⟩ := iht ht rest (output ++ e.rpn) ('-' :: stack)
      (Or.inr (by decide)) hrest
    refine ⟨e.rpn ++ d2, p2 ++ ['-'], ?_, ?_, ?_⟩
    · simp [Syn.rpn, hr2]
    · intro c hc
      rcases List.mem_append.mp hc with hc | hc
      · exact ⟨(hp2 c hc).1, Nat.le_trans (by decide) (hp2 c hc).2⟩
      · rw [List.mem_singleton.mp hc]; exact ⟨Or.inr (Or.inl rfl), by decide⟩
    · have hop := scan_operator '-' (Or.inr (Or.inl rfl)) (t.text ++ rest) (output ++ d1) p1 stack
        (fun c hc => hp1 c hc) hctx
      simp only [Syn.text, List.append_assoc, List.cons_append]
      rw [hs1, hop, List.append_assoc, ← hr1, hs2]
      simp
  | term t iht =>
    intro ht rest output stack hctx hrest
    obtain ⟨d, p, hr, hp, hs⟩ := iht ht rest output stack (hctx.mono (by decide)) hrest
    exact ⟨d, p, hr, fun c hc => ⟨(hp c hc).1, Nat.le_trans (by decide) (hp c hc).2⟩, hs⟩
  | mul t f iht ihf =>
    rintro ⟨ht, hf⟩ rest output stack hctx hrest
    obtain ⟨d1, p1, hr1, hp1, hs1⟩ := iht ht ('*' :: (f.text ++ rest)) output stack hctx rfl
    obtain ⟨d2, p2, hr2, hp2, hs2⟩ := ihf hf rest (output ++ t.rpn) ('*' :: stack)
      (Or.inr (by decide)) hrest
    refine ⟨t.rpn ++ d2, p2 ++ ['*'], ?_, ?_, ?_⟩
    · simp [Syn.rpn, hr2]
    · intro c hc
      rcases List.mem_append.mp hc with hc | hc
      · exact ⟨(hp2 c hc).1, Nat.le_trans (by decide) (hp2 c hc).2⟩
      · rw [List.mem_singleton.mp hc]; exact ⟨Or.inr (Or.inr (Or.inl rfl)), by decide⟩
    · have hop := scan_operator '*' (Or.inr (Or.inr (Or.inl rfl))) (f.text ++ rest)
        (output ++ d1) p1 stack (fun c hc => hp1 c hc) hctx
      simp only [Syn.text, List.append_assoc, List.cons_append]
      rw [hs1, hop, List.append_assoc, ← hr1, hs2]
      simp
  | div t f iht ihf =>
    rintro ⟨ht, hf⟩ rest output stack hctx hrest
    obtain ⟨d1, p1, hr1, hp1, hs1⟩ := iht ht ('/' :: (f.text ++ rest)) output stack hctx rfl
    obtain ⟨d2, p2, hr2, hp2, hs2⟩ := ihf hf rest (output ++ t.rpn) ('/' :: stack)
      (Or.inr (by decide)) hrest
    refine ⟨t.rpn ++ d2, p2 ++ ['/'], ?_, ?_, ?_⟩
    · simp [Syn.rpn, hr2]
    · intro c hc
      rcases List.mem_append.mp hc with hc | hc
      · exact ⟨(hp2 c hc).1, Nat.le_trans (by decide) (hp2 c hc).2⟩
      · rw [List.mem_singleton.mp hc]; exact ⟨Or.inr (Or.inr (Or.inr rfl)), by decide⟩
    · have hop := scan_operator '/' (Or.inr (Or.inr (Or.inr rfl))) (f.text ++ rest)
        (output ++ d1) p1 stack (fun c hc => hp1 c hc) hctx
      simp only [Syn.text, List.append_assoc, List.cons_append]
      rw [hs1, hop, List.append_assoc, ← hr1, hs2]
      simp
  | factor f ihf =>
    intro hf rest output stack hctx hrest
    obtain ⟨d, p, hr, hp, hs⟩ := ihf hf rest output stack (hctx.mono (by decide)) hrest
    exact ⟨d, p, hr, fun c hc => ⟨(hp c hc).1, Nat.le_trans (by decide) (hp c hc).2⟩, hs⟩
  | lit s =>
    rintro ⟨hne, hs⟩ rest output stack _ hrest
    exact ⟨[s], [], by simp [Syn.rpn], by simp, by
      simpa [Syn.text] using scan_literal s rest hne hs hrest output stack⟩
  | paren e ihe =>
    intro he rest output stack _ hrest
    obtain ⟨d, p, hr, hp, hs⟩ := ihe he (')' :: rest) output ('(' :: stack) (Or.inl rfl) rfl
    refine ⟨e.rpn, [], by simp [Syn.rpn], by simp, ?_⟩
    have hcl := scan_close rest (output ++ d) p stack (fun c hc => (hp c hc).1)
    simp only [Syn.text, List.append_assoc, List.cons_append, List.singleton_append,
      List.nil_append]
    rw [scan_open, hs, hcl, List.append_assoc, ← hr]

/-! ## Tokens of a post-order traversal -/

/-- A literal token is neither an operator token nor a parenthesis. -/
theorem literal_not_operator {s : List Char} (hne : s ≠ []) (hs : ∀ c ∈ s, isDigit c = true) :
    ¬ (s = ['+'] ∨ s = ['-'] ∨ s = ['*'] ∨ s = ['/']) ∧ s ≠ ['('] ∧ s ≠ [')'] := by
  refine ⟨?_, ?_, ?_⟩
  · rintro (rfl | rfl | rfl | rfl) <;> exact absurd (hs _ (List.mem_singleton.mpr rfl)) (by decide)
  · rintro rfl; exact absurd (hs _ (List.mem_singleton.mpr rfl)) (by decide)
  · rintro rfl; exact absurd (hs _ (List.mem_singleton.mpr rfl)) (by decide)

theorem rpn_no_paren {n : NT} (x : Syn n) :
    x.WellFormed → ['('] ∉ x.rpn ∧ [')'] ∉ x.rpn := by
  induction x with
  | add e t ihe iht =>
    rintro ⟨he, ht⟩
    simp [Syn.rpn, (ihe he).1, (ihe he).2, (iht ht).1, (iht ht).2]
  | sub e t ihe iht =>
    rintro ⟨he, ht⟩
    simp [Syn.rpn, (ihe he).1, (ihe he).2, (iht ht).1, (iht ht).2]
  | term t iht => intro ht; exact iht ht
  | mul t f iht ihf =>
    rintro ⟨ht, hf⟩
    simp [Syn.rpn, (iht ht).1, (iht ht).2, (ihf hf).1, (ihf hf).2]
  | div t f iht ihf =>
    rintro ⟨ht, hf⟩
    simp [Syn.rpn, (iht ht).1, (iht ht).2, (ihf hf).1, (ihf hf).2]
  | factor f ihf => intro hf; exact ihf hf
  | lit s =>
    rintro ⟨hne, hs⟩
    have h := literal_not_operator hne hs
    simp only [Syn.rpn, List.mem_singleton]
    exact ⟨fun h1 => h.2.1 h1.symm, fun h1 => h.2.2 h1.symm⟩
  | paren e ihe => intro he; exact ihe he

theorem text_no_space {n : NT} (x : Syn n) : x.WellFormed → ∀ c ∈ x.text, c ≠ ' ' := by
  induction x with
  | add e t ihe iht =>
    rintro ⟨he, ht⟩ c hc
    simp only [Syn.text, List.mem_append, List.mem_cons] at hc
    rcases hc with hc | rfl | hc
    · exact ihe he c hc
    · decide
    · exact iht ht c hc
  | sub e t ihe iht =>
    rintro ⟨he, ht⟩ c hc
    simp only [Syn.text, List.mem_append, List.mem_cons] at hc
    rcases hc with hc | rfl | hc
    · exact ihe he c hc
    · decide
    · exact iht ht c hc
  | term t iht => intro ht; exact iht ht
  | mul t f iht ihf =>
    rintro ⟨ht, hf⟩ c hc
    simp only [Syn.text, List.mem_append, List.mem_cons] at hc
    rcases hc with hc | rfl | hc
    · exact iht ht c hc
    · decide
    · exact ihf hf c hc
  | div t f iht ihf =>
    rintro ⟨ht, hf⟩ c hc
    simp only [Syn.text, List.mem_append, List.mem_cons] at hc
    rcases hc with hc | rfl | hc
    · exact iht ht c hc
    · decide
    · exact ihf hf c hc
  | factor f ihf => intro hf; exact ihf hf
  | lit s =>
    rintro ⟨_, hs⟩ c hc
    rintro rfl
    exact absurd (hs _ hc) (by decide)
  | paren e ihe =>
    intro he c hc
    simp only [Syn.text, List.mem_append, List.mem_cons, List.mem_singleton, List.not_mem_nil,
      or_false] at hc
    rcases hc with (rfl | hc) | rfl
    · decide
    · exact ihe he c hc
    · decide

theorem removeSpaces_text {n : NT} (x : Syn n) (h : x.WellFormed) :
    removeSpaces x.text = x.text := by
  unfold removeSpaces
  rw [List.filter_eq_self]
  intro c hc
  simpa using text_no_space x h c hc

theorem infixToPostfix_syn (e : Syn .E) (h : e.WellFormed) :
    infixToPostfix e.text = some (.ok e.rpn) := by
  obtain ⟨d, p, hr, hp, hs⟩ := scan_syn e h [] [] [] trivial trivial
  have hscan : scanLoop e.text.length e.text [] [] = some (.ok (d, p)) := by
    have := hs
    simp only [List.append_nil, scan_nil, List.nil_append] at this
    exact this
  unfold infixToPostfix
  rw [hscan]
  simp only
  rw [drain_operators p (fun c hc => (hp c hc).1), hr]

/-! ## Evaluation of a post-order traversal -/

theorem evalTokens_literal (lib : Float64Lib) {s : List Char} (hne : s ≠ [])
    (hs : ∀ c ∈ s, isDigit c = true) (rest stack : List Token) :
    evalTokens lib (s :: rest) stack = evalTokens lib rest (s :: stack) := by
  rw [evalTokens.eq_def]
  simp only [if_neg (literal_not_operator hne hs).1]

theorem evalTokens_operator (lib : Float64Lib) (token aStr bStr : Token) (a b res : lib.F)
    (htok : token = ['+'] ∨ token = ['-'] ∨ token = ['*'] ∨ token = ['/'])
    (ha : lib.parseFloat aStr = some a) (hb : lib.parseFloat bStr = some b)
    (hres : applyOperator lib token a b = .ok res) (rest stack : List Token) :
    evalTokens lib (token :: rest) (bStr :: aStr :: stack) =
      evalTokens lib rest (lib.sprint res :: stack) := by
  rw [evalTokens.eq_def]
  simp only [if_pos htok, ha, hb, hres]

theorem evalTokens_syn (lib : Float64Lib) {n : NT} (x : Syn n) :
    x.WellFormed → x.LiteralsParse lib → x.NoZeroDivisor lib → x.RoundTrips lib →
    ∃ (v : lib.F) (s : Token), x.value lib = some v ∧ lib.parseFloat s = some v ∧
      ∀ rest stack : List Token,
        evalTokens lib (x.rpn ++ rest) stack = evalTokens lib rest (s :: stack) := by
  induction x with
  | add e t ihe iht =>
    rintro ⟨he, ht⟩ ⟨le, lt⟩ ⟨ze, zt⟩ ⟨re, rt, hrt⟩
    obtain ⟨v1, s1, hv1, hp1, h1⟩ := ihe he le ze re
    obtain ⟨v2, s2, hv2, hp2, h2⟩ := iht ht lt zt rt
    have hv : (Syn.add e t).value lib = some (lib.add v1 v2) := by
      simp [Syn.value, hv1, hv2, nodeValue]
    refine ⟨lib.add v1 v2, lib.sprint (lib.add v1 v2), hv, hrt _ hv, fun rest stack => ?_⟩
    simp only [Syn.rpn, List.append_assoc, List.singleton_append]
    rw [h1, h2, evalTokens_operator lib ['+'] s1 s2 v1 v2 (lib.add v1 v2) (Or.inl rfl) hp1 hp2 rfl]
  | sub e t ihe iht =>
    rintro ⟨he, ht⟩ ⟨le, lt⟩ ⟨ze, zt⟩ ⟨re, rt, hrt⟩
    obtain ⟨v1, s1, hv1, hp1, h1⟩ := ihe he le ze re
    obtain ⟨v2, s2, hv2, hp2, h2⟩ := iht ht lt zt rt
    have hv : (Syn.sub e t).value lib = some (lib.sub v1 v2) := by
      simp [Syn.value, hv1, hv2, nodeValue]
    refine ⟨lib.sub v1 v2, lib.sprint (lib.sub v1 v2), hv, hrt _ hv, fun rest stack => ?_⟩
    simp only [Syn.rpn, List.append_assoc, List.singleton_append]
    rw [h1, h2, evalTokens_operator lib ['-'] s1 s2 v1 v2 (lib.sub v1 v2) (Or.inr (Or.inl rfl))
      hp1 hp2 rfl]
  | term t iht => intro ht lt zt rt; exact iht ht lt zt rt
  | mul t f iht ihf =>
    rintro ⟨ht, hf⟩ ⟨lt, lf⟩ ⟨zt, zf⟩ ⟨rt, rf, hrt⟩
    obtain ⟨v1, s1, hv1, hp1, h1⟩ := iht ht lt zt rt
    obtain ⟨v2, s2, hv2, hp2, h2⟩ := ihf hf lf zf rf
    have hv : (Syn.mul t f).value lib = some (lib.mul v1 v2) := by
      simp [Syn.value, hv1, hv2, nodeValue]
    refine ⟨lib.mul v1 v2, lib.sprint (lib.mul v1 v2), hv, hrt _ hv, fun rest stack => ?_⟩
    simp only [Syn.rpn, List.append_assoc, List.singleton_append]
    rw [h1, h2, evalTokens_operator lib ['*'] s1 s2 v1 v2 (lib.mul v1 v2)
      (Or.inr (Or.inr (Or.inl rfl))) hp1 hp2 rfl]
  | div t f iht ihf =>
    rintro ⟨ht, hf⟩ ⟨lt, lf⟩ ⟨zt, zf, hz⟩ ⟨rt, rf, hrt⟩
    obtain ⟨v1, s1, hv1, hp1, h1⟩ := iht ht lt zt rt
    obtain ⟨v2, s2, hv2, hp2, h2⟩ := ihf hf lf zf rf
    have hv : (Syn.div t f).value lib = some (lib.div v1 v2) := by
      simp [Syn.value, hv1, hv2, nodeValue]
    have happ : applyOperator lib ['/'] v1 v2 = .ok (lib.div v1 v2) := by
      simp [applyOperator, hz v2 hv2]
    refine ⟨lib.div v1 v2, lib.sprint (lib.div v1 v2), hv, hrt _ hv, fun rest stack => ?_⟩
    simp only [Syn.rpn, List.append_assoc, List.singleton_append]
    rw [h1, h2, evalTokens_operator lib ['/'] s1 s2 v1 v2 (lib.div v1 v2)
      (Or.inr (Or.inr (Or.inr rfl))) hp1 hp2 happ]
  | factor f ihf => intro hf lf zf rf; exact ihf hf lf zf rf
  | lit s =>
    rintro ⟨hne, hs⟩ hl _ _
    obtain ⟨v, hv⟩ := Option.isSome_iff_exists.mp hl
    exact ⟨v, s, hv, hv, fun rest stack => by
      simpa [Syn.rpn] using evalTokens_literal lib hne hs rest stack⟩
  | paren e ihe => intro he le ze re; exact ihe he le ze re

/-! ## Parser and evaluator on the grammar -/

theorem evaluatePostfix_syn (lib : Float64Lib) (e : Syn .E) (hwf : e.WellFormed)
    (hlit : e.LiteralsParse lib) (hdiv : e.NoZeroDivisor lib) (hrt : e.RoundTrips lib) :
    ∃ v, e.value lib = some v ∧ evaluatePostfix lib e.rpn = .ok v := by
  obtain ⟨v, s, hv, hp, h⟩ := evalTokens_syn lib e hwf hlit hdiv hrt
  refine ⟨v, hv, ?_⟩
  have h0 := h [] []
  simp only [List.append_nil, evalTokens] at h0
  simp [evaluatePostfix, h0, hp]

theorem evaluate_of_short (lib : Float64Lib) (expr : List Char)
    (hsp : removeSpaces expr = expr) (hlen : expr.length ≤ 1000) :
    evaluate lib expr = evaluateManually lib expr := by
  have : ¬ expr.length > 1000 := Nat.not_lt.mpr hlen
  simp only [evaluate, hsp, this, if_false, simpleEvaluate]
  cases evaluateManually lib expr with
  | none => rfl
  | some r => cases r <;> rfl

/-- C1: for every parse tree of the grammar `E ::= E+T | E-T | T`,
`T ::= T*F | T/F | F`, `F ::= literal | (E)` whose literals are non-empty runs
of digits and `.`, `infixToPostfix` applied to the text of the tree succeeds
and returns the post-order traversal of the tree (operands left then right,
then the operator), which holds no parenthesis token. -/
theorem infixToPostfix_grammar (e : Syn .E) (hwf : e.WellFormed) :
    infixToPostfix e.text = some (.ok e.rpn) ∧ ['('] ∉ e.rpn ∧ [')'] ∉ e.rpn :=
  ⟨infixToPostfix_syn e hwf, rpn_no_paren e hwf⟩

theorem sampleExpr_wellFormed : sampleExpr.WellFormed := by
  simp only [sampleExpr, Syn.WellFormed, IsLiteral]
  decide

/-- C1 on `(2+3)*4-10/2.5`: the postfix sequence is `2 3 + 4 * 10 2.5 / -`. -/
theorem infixToPostfix_grammar_witness :
    sampleExpr.text = "(2+3)*4-10/2.5".toList ∧
    sampleExpr.rpn = [['2'], ['3'], ['+'], ['4'], ['*'], ['1', '0'], ['2', '.', '5'], ['/'], ['-']] ∧
    infixToPostfix sampleExpr.text = some (.ok sampleExpr.rpn) ∧
    ['('] ∉ sampleExpr.rpn ∧ [')'] ∉ sampleExpr.rpn :=
  ⟨by decide, by decide, infixToPostfix_grammar sampleExpr sampleExpr_wellFormed⟩

/-- C2: for every parse tree of the grammar whose text has at most 1000 bytes
once spaces are removed, whose literals all parse as numbers and in which no
division has a right operand equal to zero, `evaluate` applied to the text
succeeds and returns the value of the tree (each node computed as `a+b`,
`a-b`, `a*b` or `a/b`, `a` the left and `b` the right operand), the library
reading back unchanged the number it printed for each node. -/
theorem evaluate_grammar (lib : Float64Lib) (e : Syn .E) (hwf : e.WellFormed)
    (hlen : (removeSpaces e.text).length ≤ 1000)
    (hlit : e.LiteralsParse lib) (hdiv : e.NoZeroDivisor lib) (hrt : e.RoundTrips lib) :
    ∃ v, e.value lib = some v ∧ evaluate lib e.text = some (.ok v) := by
  obtain ⟨v, hv, hev⟩ := evaluatePostfix_syn lib e hwf hlit hdiv hrt
  refine ⟨v, hv, ?_⟩
  rw [removeSpaces_text e hwf] at hlen
  rw [evaluate_of_short lib e.text (removeSpaces_text e hwf) hlen]
  simp [evaluateManually, infixToPostfix_syn e hwf, hev]

theorem sampleExpr_value : sampleExpr.value exactLib = some (Frac.ofInt 16) := by decide

/-- C2 on `(2+3)*4-10/2.5` with exact arithmetic: the value is 16. -/
theorem evaluate_grammar_witness :
    sampleExpr.value exactLib = some (Frac.ofInt 16) ∧
    ∃ v, sampleExpr.value exactLib = some v ∧ evaluate exactLib sampleExpr.text = some (.ok v) :=
  ⟨sampleExpr_value, evaluate_grammar exactLib sampleExpr sampleExpr_wellFormed (by decide)
    (by simp only [sampleExpr, Syn.LiteralsParse]; decide)
    (by
      simp only [sampleExpr, Syn.NoZeroDivisor, true_and, and_true]
      intro b hb
      obtain rfl : Frac.norm 25 10 = b := Option.some.inj ((by decide : _ = _).symm.trans hb)
      decide)
    (by
      simp only [sampleExpr, Syn.RoundTrips, true_and, and_true]
      refine ⟨⟨?_, ?_⟩, ?_, ?_⟩ <;> intro v hv
      · obtain rfl : Frac.ofInt 5 = v := Option.some.inj ((by decide : _ = _).symm.trans hv)
        decide
      · obtain rfl : Frac.ofInt 20 = v := Option.some.inj ((by decide : _ = _).symm.trans hv)
        decide
      · obtain rfl : Frac.ofInt 4 = v := Option.some.inj ((by decide : _ = _).symm.trans hv)
        decide
      · obtain rfl : Frac.ofInt 16 = v := Option.some.inj ((by decide : _ = _).symm.trans hv)
        decide)⟩

/-! ## Concrete expressions -/

theorem evaluate_of_tokens (lib : Float64Lib) (expr : List Char) (tokens : List Token)
    (hsp : removeSpaces expr = expr) (hlen : expr.length ≤ 1000)
    (htok : infixToPostfix expr = some (.ok tokens)) :
    evaluate lib expr = some (evaluatePostfix lib tokens) := by
  rw [evaluate_of_short lib expr hsp hlen]
  simp [evaluateManually, htok]

theorem evaluate_of_error (lib : Float64Lib) (expr : List Char) (err : CalcError)
    (hsp : removeSpaces expr = expr) (hlen : expr.length ≤ 1000)
    (htok : infixToPostfix expr = some (.error err)) :
    evaluate lib expr = some (.error err) := by
  rw [evaluate_of_short lib expr hsp hlen]
  simp [evaluateManually, htok]

/-- Postfix evaluation of `a b op` when the library computes `a op b = c`. -/
theorem evalTokens_computes (lib : Float64Lib) (op : lib.F → lib.F → lib.F) (token : Token)
    (a b c : String) (h : lib.Computes op a b c)
    (happ : ∀ x y, lib.parseFloat b.toList = some y → applyOperator lib token x y = .ok (op x y))
    (htok : token = ['+'] ∨ token = ['-'] ∨ token = ['*'] ∨ token = ['/'])
    (rest stack : List Token) :
    evalTokens lib (token :: rest) (b.toList :: a.toList :: stack) =
      evalTokens lib rest (c.toList :: stack) := by
  obtain ⟨x, y, z, hx, hy, _, hz, hp⟩ := h
  rw [evalTokens_operator lib token a.toList b.toList x y (op x y) htok hx hy (happ x y hy),
    hz, hp]

theorem applyOperator_div (lib : Float64Lib) (b : String) (h : lib.ReadsNonZero b) :
    ∀ x y, lib.parseFloat b.toList = some y →
      applyOperator lib ['/'] x y = .ok (lib.div x y) := by
  intro x y hy
  obtain ⟨y', hy', hz⟩ := h
  obtain rfl : y' = y := Option.some.inj (hy'.symm.trans hy)
  simp [applyOperator, hz]

theorem evaluatePostfix_of_stack (lib : Float64Lib) (tokens : List Token) (s : Token) (v : lib.F)
    (h : evalTokens lib tokens [] = .ok [s]) (hv : lib.parseFloat s = some v) :
    evaluatePostfix lib tokens = .ok v := by
  simp [evaluatePostfix, h, hv]

theorem Float64Lib.Computes.result {lib : Float64Lib} {op : lib.F → lib.F → lib.F}
    {a b c : String} (h : lib.Computes op a b c) : ∃ v, lib.parseFloat c.toList = some v := by
  obtain ⟨_, _, v, _, _, hv, _, _⟩ := h
  exact ⟨v, hv⟩

/-- C3: multiplication and division bind tighter than addition and
subtraction, and parentheses override precedence: in a library that computes
3*4=12, 2+12=14, 2+3=5, 5*4=20, 10/2=5 and 5-3=2, `evaluate("2+3*4")` succeeds
with 14, `evaluate("(2+3)*4")` with 20 and `evaluate("10/2-3")` with 2. -/
theorem evaluate_precedence (lib : Float64Lib)
    (h1 : lib.Computes lib.mul "3" "4" "12") (h2 : lib.Computes lib.add "2" "12" "14")
    (h3 : lib.Computes lib.add "2" "3" "5") (h4 : lib.Computes lib.mul "5" "4" "20")
    (h5 : lib.Computes lib.div "10" "2" "5") (h6 : lib.Computes lib.sub "5" "3" "2")
    (h7 : lib.ReadsNonZero "2") :
    (∃ v, lib.parseFloat "14".toList = some v ∧
      evaluate lib "2+3*4".toList = some (.ok v)) ∧
    (∃ v, lib.parseFloat "20".toList = some v ∧
      evaluate lib "(2+3)*4".toList = some (.ok v)) ∧
    (∃ v, lib.parseFloat "2".toList = some v ∧
      evaluate lib "10/2-3".toList = some (.ok v)) := by
  have hpush : ∀ s : String, (∀ c ∈ s.toList, isDigit c = true) → s.toList ≠ [] →
      ∀ rest stack, evalTokens lib (s.toList :: rest) stack =
        evalTokens lib rest (s.toList :: stack) :=
    fun s hs hne rest stack => evalTokens_literal lib hne hs rest stack
  refine ⟨?_, ?_, ?_⟩
  · obtain ⟨v, hv⟩ := h2.result
    refine ⟨v, hv, ?_⟩
    rw [evaluate_of_tokens lib "2+3*4".toList
      ["2".toList, "3".toList, "4".toList, ['*'], ['+']] (by decide) (by decide) (by decide)]
    refine congrArg some (evaluatePostfix_of_stack lib _ "14".toList v ?_ hv)
    rw [hpush "2" (by decide) (by decide), hpush "3" (by decide) (by decide),
      hpush "4" (by decide) (by decide),
      evalTokens_computes lib lib.mul ['*'] "3" "4" "12" h1 (fun _ _ _ => rfl)
        (Or.inr (Or.inr (Or.inl rfl))),
      evalTokens_computes lib lib.add ['+'] "2" "12" "14" h2 (fun _ _ _ => rfl) (Or.inl rfl),
      evalTokens]
  · obtain ⟨v, hv⟩ := h4.result
    refine ⟨v, hv, ?_⟩
    rw [evaluate_of_tokens lib "(2+3)*4".toList
      ["2".toList, "3".toList, ['+'], "4".toList, ['*']] (by decide) (by decide) (by decide)]
    refine congrArg some (evaluatePostfix_of_stack lib _ "20".toList v ?_ hv)
    rw [hpush "2" (by decide) (by decide), hpush "3" (by decide) (by decide),
      evalTokens_computes lib lib.add ['+'] "2" "3" "5" h3 (fun _ _ _ => rfl) (Or.inl rfl),
      hpush "4" (by decide) (by decide),
      evalTokens_computes lib lib.mul ['*'] "5" "4" "20" h4 (fun _ _ _ => rfl)
        (Or.inr (Or.inr (Or.inl rfl))),
      evalTokens]
  · obtain ⟨v, hv⟩ := h6.result
    refine ⟨v, hv, ?_⟩
    rw [evaluate_of_tokens lib "10/2-3".toList
      ["10".toList, "2".toList, ['/'], "3".toList, ['-']] (by decide) (by decide) (by decide)]
    refine congrArg some (evaluatePostfix_of_stack lib _ "2".toList v ?_ hv)
    rw [hpush "10" (by decide) (by decide), hpush "2" (by decide) (by decide),
      evalTokens_computes lib lib.div ['/'] "10" "2" "5" h5 (applyOperator_div lib "2" h7)
        (Or.inr (Or.inr (Or.inr rfl))),
      hpush "3" (by decide) (by decide),
      evalTokens_computes lib lib.sub ['-'] "5" "3" "2" h6 (fun _ _ _ => rfl)
        (Or.inr (Or.inl rfl)),
      evalTokens]

/-- C3 with exact arithmetic: the three results are 14, 20 and 2. -/
theorem evaluate_precedence_witness :
    ((∃ v, exactLib.parseFloat "14".toList = some v ∧
      evaluate exactLib "2+3*4".toList = some (.ok v)) ∧
    (∃ v, exactLib.parseFloat "20".toList = some v ∧
      evaluate exactLib "(2+3)*4".toList = some (.ok v)) ∧
    (∃ v, exactLib.parseFloat "2".toList = some v ∧
      evaluate exactLib "10/2-3".toList = some (.ok v))) ∧
    exactLib.parseFloat "14".toList = some (Frac.ofInt 14) ∧
    exactLib.parseFloat "20".toList = some (Frac.ofInt 20) ∧
    exactLib.parseFloat "2".toList = some (Frac.ofInt 2) :=
  ⟨evaluate_precedence exactLib
    ⟨Frac.ofInt 3, Frac.ofInt 4, Frac.ofInt 12, by decide⟩
    ⟨Frac.ofInt 2, Frac.ofInt 12, Frac.ofInt 14, by decide⟩
    ⟨Frac.ofInt 2, Frac.ofInt 3, Frac.ofInt 5, by decide⟩
    ⟨Frac.ofInt 5, Frac.ofInt 4, Frac.ofInt 20, by decide⟩
    ⟨Frac.ofInt 10, Frac.ofInt 2, Frac.ofInt 5, by decide⟩
    ⟨Frac.ofInt 5, Frac.ofInt 3, Frac.ofInt 2, by decide⟩
    ⟨Frac.ofInt 2, by decide⟩, by decide, by decide, by decide⟩
/-- C4: operators of equal precedence are left-associative: for all numeric
literals `a`, `b`, `c` and operators `op1`, `op2` of the same precedence,
`infixToPostfix(a op1 b op2 c)` is `[a, b, op1, c, op2]`; and in a library
that computes 8-3=5, 5-2=3, 8/4=2 and 2/2=1, `evaluate("8-3-2")` succeeds with
3 and `evaluate("8/4/2")` with 1. -/
theorem infixToPostfix_left_assoc (lib : Float64Lib)
    (h1 : lib.Computes lib.sub "8" "3" "5") (h2 : lib.Computes lib.sub "5" "2" "3")
    (h3 : lib.Computes lib.div "8" "4" "2") (h4 : lib.Computes lib.div "2" "2" "1")
    (h5 : lib.ReadsNonZero "4") (h6 : lib.ReadsNonZero "2") :
    (∀ (a b c : List Char) (op1 op2 : Char), IsLiteral a → IsLiteral b → IsLiteral c →
      IsOperator op1 → IsOperator op2 → precedence op1 = precedence op2 →
      infixToPostfix (a ++ op1 :: (b ++ op2 :: c)) = some (.ok [a, b, [op1], c, [op2]])) ∧
    (∃ v, lib.parseFloat "3".toList = some v ∧
      evaluate lib "8-3-2".toList = some (.ok v)) ∧
    (∃ v, lib.parseFloat "1".toList = some v ∧
      evaluate lib "8/4/2".toList = some (.ok v)) := by
  have hpush : ∀ s : String, (∀ c ∈ s.toList, isDigit c = true) → s.toList ≠ [] →
      ∀ rest stack, evalTokens lib (s.toList :: rest) stack =
        evalTokens lib rest (s.toList :: stack) :=
    fun s hs hne rest stack => evalTokens_literal lib hne hs rest stack
  refine ⟨?_, ?_, ?_⟩
  · intro a b c op1 op2 ha hb hc h1 h2 hprec
    have e1 : scan (a ++ op1 :: (b ++ op2 :: c)) [] [] = scan (op1 :: (b ++ op2 :: c)) [a] [] :=
      scan_literal a _ ha.1 ha.2 (show NoDigitHead (op1 :: _) from h1.not_digit) [] []
    have e2 : scan (op1 :: (b ++ op2 :: c)) [a] [] = scan (b ++ op2 :: c) [a] [op1] :=
      scan_operator op1 h1 _ [a] [] [] (by simp) trivial
    have e3 : scan (b ++ op2 :: c) [a] [op1] = scan (op2 :: c) [a, b] [op1] :=
      scan_literal b _ hb.1 hb.2 (show NoDigitHead (op2 :: _) from h2.not_digit) [a] [op1]
    have e4 : scan (op2 :: c) [a, b] [op1] = scan c [a, b, [op1]] [op2] :=
      scan_operator op2 h2 _ [a, b] [op1] []
        (by simpa using ⟨h1, Nat.le_of_eq hprec.symm⟩) trivial
    have e5 : scan c [a, b, [op1]] [op2] = scan [] [a, b, [op1], c] [op2] := by
      have := scan_literal c [] hc.1 hc.2 trivial [a, b, [op1]] [op2]
      rwa [List.append_nil] at this
    have hscan : scan (a ++ op1 :: (b ++ op2 :: c)) [] [] =
        some (.ok ([a, b, [op1], c], [op2])) := by
      rw [e1, e2, e3, e4, e5, scan_nil]
    unfold infixToPostfix
    rw [show scanLoop (a ++ op1 :: (b ++ op2 :: c)).length (a ++ op1 :: (b ++ op2 :: c)) [] []
      = scan (a ++ op1 :: (b ++ op2 :: c)) [] [] from rfl, hscan]
    simp only
    rw [drain_operators [op2] (by simpa using h2)]
    simp
  · obtain ⟨v, hv⟩ := h2.result
    refine ⟨v, hv, ?_⟩
    rw [evaluate_of_tokens lib "8-3-2".toList
      ["8".toList, "3".toList, ['-'], "2".toList, ['-']] (by decide) (by decide) (by decide)]
    refine congrArg some (evaluatePostfix_of_stack lib _ "3".toList v ?_ hv)
    rw [hpush "8" (by decide) (by decide), hpush "3" (by decide) (by decide),
      evalTokens_computes lib lib.sub ['-'] "8" "3" "5" h1 (fun _ _ _ => rfl)
        (Or.inr (Or.inl rfl)),
      hpush "2" (by decide) (by decide),
      evalTokens_computes lib lib.sub ['-'] "5" "2" "3" h2 (fun _ _ _ => rfl)
        (Or.inr (Or.inl rfl)),
      evalTokens]
  · obtain ⟨v, hv⟩ := h4.result
    refine ⟨v, hv, ?_⟩
    rw [evaluate_of_tokens lib "8/4/2".toList
      ["8".toList, "4".toList, ['/'], "2".toList, ['/']] (by decide) (by decide) (by decide)]
    refine congrArg some (evaluatePostfix_of_stack lib _ "1".toList v ?_ hv)
    rw [hpush "8" (by decide) (by decide), hpush "4" (by decide) (by decide),
      evalTokens_computes lib lib.div ['/'] "8" "4" "2" h3 (applyOperator_div lib "4" h5)
        (Or.inr (Or.inr (Or.inr rfl))),
      hpush "2" (by decide) (by decide),
      evalTokens_computes lib lib.div ['/'] "2" "2" "1" h4 (applyOperator_div lib "2" h6)
        (Or.inr (Or.inr (Or.inr rfl))),
      evalTokens]

/-- C4 with exact arithmetic: `8-3-2` is 3, not 7, and `8/4/2` is 1, not 4. -/
theorem infixToPostfix_left_assoc_witness :
    ((∀ (a b c : List Char) (op1 op2 : Char), IsLiteral a → IsLiteral b → IsLiteral c →
      IsOperator op1 → IsOperator op2 → precedence op1 = precedence op2 →
      infixToPostfix (a ++ op1 :: (b ++ op2 :: c)) = some (.ok [a, b, [op1], c, [op2]])) ∧
    (∃ v, exactLib.parseFloat "3".toList = some v ∧
      evaluate exactLib "8-3-2".toList = some (.ok v)) ∧
    (∃ v, exactLib.parseFloat "1".toList = some v ∧
      evaluate exactLib "8/4/2".toList = some (.ok v))) ∧
    exactLib.parseFloat "3".toList = some (Frac.ofInt 3) ∧
    exactLib.parseFloat "1".toList = some (Frac.ofInt 1) ∧
    Frac.ofInt 3 ≠ Frac.ofInt 7 ∧ Frac.ofInt 1 ≠ Frac.ofInt 4 :=
  ⟨infixToPostfix_left_assoc exactLib
    ⟨Frac.ofInt 8, Frac.ofInt 3, Frac.ofInt 5, by decide⟩
    ⟨Frac.ofInt 5, Frac.ofInt 2, Frac.ofInt 3, by decide⟩
    ⟨Frac.ofInt 8, Frac.ofInt 4, Frac.ofInt 2, by decide⟩
    ⟨Frac.ofInt 2, Frac.ofInt 2, Frac.ofInt 1, by decide⟩
    ⟨Frac.ofInt 4, by decide⟩ ⟨Frac.ofInt 2, by decide⟩, by decide, by decide, by decide, by decide⟩

/-! ## Division by zero -/

theorem evalTokens_append (lib : Float64Lib) (pre rest : List Token) :
    ∀ stack : List Token, evalTokens lib (pre ++ rest) stack =
      match evalTokens lib pre stack with
      | .ok stack' => evalTokens lib rest stack'
      | .error e => .error e := by
  induction pre with
  | nil => intro stack; simp [evalTokens]
  | cons token pre ih =>
    intro stack
    rw [List.cons_append, evalTokens.eq_def, evalTokens.eq_def lib (token :: pre)]
    simp only
    split
    · split
      · split
        · split
          · exact ih _
          · rfl
        · rfl
      · rfl
    · exact ih _

/-- C5: division never evaluates with a zero divisor: whenever the postfix
evaluation reaches a `/` token with two operands on the stack that parse and
the top one `b` is zero, it fails with `division by zero`; and in a library
that reads `1`, reads `0` as zero and computes 2-2=0, `evaluate("1/0")` and
`evaluate("1/(2-2)")` fail with `division by zero`. -/
theorem division_by_zero (lib : Float64Lib) (h1 : (lib.parseFloat "1".toList).isSome)
    (h0 : lib.ReadsZero "0") (h2 : lib.Computes lib.sub "2" "2" "0") :
    (∀ (pre rest : List Token) (aStr bStr : Token) (stack : List Token) (a b : lib.F),
      evalTokens lib pre [] = .ok (bStr :: aStr :: stack) →
      lib.parseFloat aStr = some a → lib.parseFloat bStr = some b → lib.isZero b = true →
      evaluatePostfix lib (pre ++ ['/'] :: rest) = .error .divisionByZero) ∧
    evaluate lib "1/0".toList = some (.error .divisionByZero) ∧
    evaluate lib "1/(2-2)".toList = some (.error .divisionByZero) := by
  have hgen : ∀ (pre rest : List Token) (aStr bStr : Token) (stack : List Token) (a b : lib.F),
      evalTokens lib pre [] = .ok (bStr :: aStr :: stack) →
      lib.parseFloat aStr = some a → lib.parseFloat bStr = some b → lib.isZero b = true →
      evaluatePostfix lib (pre ++ ['/'] :: rest) = .error .divisionByZero := by
    intro pre rest aStr bStr stack a b hpre ha hb hz
    have : evalTokens lib (pre ++ ['/'] :: rest) [] = .error .divisionByZero := by
      rw [evalTokens_append, hpre]
      simp only
      rw [evalTokens.eq_def]
      simp [ha, hb, applyOperator, hz]
    simp [evaluatePostfix, this]
  have hpush : ∀ s : String, (∀ c ∈ s.toList, isDigit c = true) → s.toList ≠ [] →
      ∀ rest stack, evalTokens lib (s.toList :: rest) stack =
        evalTokens lib rest (s.toList :: stack) :=
    fun s hs hne rest stack => evalTokens_literal lib hne hs rest stack
  obtain ⟨one, hone⟩ := Option.isSome_iff_exists.mp h1
  obtain ⟨zero, hzero, hz⟩ := h0
  refine ⟨hgen, ?_, ?_⟩
  · rw [evaluate_of_tokens lib "1/0".toList ["1".toList, "0".toList, ['/']]
      (by decide) (by decide) (by decide)]
    refine congrArg some (hgen ["1".toList, "0".toList] [] "1".toList "0".toList [] one zero
      ?_ hone hzero hz)
    rw [hpush "1" (by decide) (by decide), hpush "0" (by decide) (by decide), evalTokens]
  · rw [evaluate_of_tokens lib "1/(2-2)".toList ["1".toList, "2".toList, "2".toList, ['-'], ['/']]
      (by decide) (by decide) (by decide)]
    refine congrArg some (hgen ["1".toList, "2".toList, "2".toList, ['-']] [] "1".toList
      "0".toList [] one zero ?_ hone hzero hz)
    rw [hpush "1" (by decide) (by decide), hpush "2" (by decide) (by decide),
      hpush "2" (by decide) (by decide),
      evalTokens_computes lib lib.sub ['-'] "2" "2" "0" h2 (fun _ _ _ => rfl)
        (Or.inr (Or.inl rfl)),
      evalTokens]

/-- C5 with exact arithmetic, and the general statement at the postfix
sequence `7 0 /`. -/
theorem division_by_zero_witness :
    evaluatePostfix exactLib ["7".toList, "0".toList, ['/']] = .error .divisionByZero ∧
    evaluate exactLib "1/0".toList = some (.error .divisionByZero) ∧
    evaluate exactLib "1/(2-2)".toList = some (.error .divisionByZero) :=
  have h := division_by_zero exactLib (by decide) ⟨Frac.ofInt 0, by decide⟩
    ⟨Frac.ofInt 2, Frac.ofInt 2, Frac.ofInt 0, by decide⟩
  ⟨h.1 ["7".toList, "0".toList] [] "7".toList "0".toList [] (Frac.ofInt 7) (Frac.ofInt 0)
    (by decide) (by decide) (by decide) (by decide), h.2⟩

/-! ## Parentheses -/

theorem unbalanced_iff (input : List Char) :
    ∀ d : Nat, unbalanced d input = true ↔
      ∃ p, p <+: input ∧ p.count '(' + d < p.count ')' := by
  induction input with
  | nil =>
    intro d
    simp [unbalanced]
  | cons c cs ih =>
    intro d
    by_cases ho : c = '('
    · subst ho
      simp only [unbalanced, if_true, ih, List.prefix_cons_iff]
      constructor
      · rintro ⟨p, hp, hlt⟩
        exact ⟨'(' :: p, Or.inr ⟨p, rfl, hp⟩, by simp; omega⟩
      · rintro ⟨p, (rfl | ⟨t, rfl, ht⟩), hlt⟩
        · simp at hlt
        · exact ⟨t, ht, by simp at hlt; omega⟩
    · by_cases hc : c = ')'
      · subst hc
        simp only [unbalanced, if_neg ho, if_true, Bool.or_eq_true, beq_iff_eq, ih,
          List.prefix_cons_iff]
        constructor
        · rintro (rfl | ⟨p, hp, hlt⟩)
          · exact ⟨[')'], Or.inr ⟨[], rfl, List.nil_prefix⟩, by simp⟩
          · exact ⟨')' :: p, Or.inr ⟨p, rfl, hp⟩, by simp; omega⟩
        · rintro ⟨p, (rfl | ⟨t, rfl, ht⟩), hlt⟩
          · simp at hlt
          · by_cases hd : d = 0
            · exact Or.inl hd
            · exact Or.inr ⟨t, ht, by simp at hlt; omega⟩
      · simp only [unbalanced, if_neg ho, if_neg hc, ih, List.prefix_cons_iff]
        constructor
        · rintro ⟨p, hp, hlt⟩
          exact ⟨c :: p, Or.inr ⟨p, rfl, hp⟩, by simpa [List.count_cons, ho, hc] using hlt⟩
        · rintro ⟨p, (rfl | ⟨t, rfl, ht⟩), hlt⟩
          · simp at hlt
          · exact ⟨t, ht, by simpa [List.count_cons, ho, hc] using hlt⟩
theorem isDigit_ne_open {c : Char} (h : isDigit c = true) : c ≠ '(' := by
  rintro rfl; exact absurd h (by decide)

theorem isDigit_ne_close {c : Char} (h : isDigit c = true) : c ≠ ')' := by
  rintro rfl; exact absurd h (by decide)

theorem readNumber_spec (rest : List Char) :
    ∀ num : Token, ∃ run, rest = run ++ (readNumber num rest).2 ∧ ∀ c ∈ run, isDigit c = true := by
  induction rest with
  | nil => intro num; exact ⟨[], by simp [readNumber], by simp⟩
  | cons c rest ih =>
    intro num
    by_cases hc : isDigit c = true
    · obtain ⟨run, hrun, hd⟩ := ih (num ++ [c])
      refine ⟨c :: run, ?_, ?_⟩
      · simp only [readNumber, hc, Bool.true_or, if_true, List.cons_append]
        exact congrArg (c :: ·) hrun
      · intro x hx
        rcases List.mem_cons.mp hx with rfl | hx
        · exact hc
        · exact hd x hx
    · have hdot : (c == '.') = false := by
        cases hcd : (c == '.') with
        | false => rfl
        | true => simp [isDigit, hcd] at hc
      refine ⟨[], ?_, by simp⟩
      simp [readNumber, hc, hdot]

theorem unbalanced_run (run input : List Char) (h : ∀ c ∈ run, isDigit c = true) (d : Nat) :
    unbalanced d (run ++ input) = unbalanced d input := by
  induction run with
  | nil => rfl
  | cons c run ih =>
    have hc := h c (List.mem_cons_self _ _)
    simp only [List.cons_append, unbalanced, if_neg (isDigit_ne_open hc),
      if_neg (isDigit_ne_close hc)]
    exact ih (fun x hx => h x (List.mem_cons_of_mem _ hx))

theorem count_run (run input : List Char) (h : ∀ c ∈ run, isDigit c = true) :
    (run ++ input).count '(' = input.count '(' ∧ (run ++ input).count ')' = input.count ')' := by
  induction run with
  | nil => exact ⟨rfl, rfl⟩
  | cons c run ih =>
    have hc := h c (List.mem_cons_self _ _)
    have := ih (fun x hx => h x (List.mem_cons_of_mem _ hx))
    simp [List.count_cons, isDigit_ne_open hc, isDigit_ne_close hc, this]

theorem popToParen_depth (stack : List Char) (hst : StackOk stack) :
    ∀ output : List Token,
      (stack.count '(' = 0 → (popToParen stack output).1 = false) ∧
      (0 < stack.count '(' → ∃ stack' output', popToParen stack output = (true, stack', output') ∧
        StackOk stack' ∧ stack'.count '(' + 1 = stack.count '(') := by
  induction stack with
  | nil => intro output; simp [popToParen]
  | cons top stack ih =>
    intro output
    have hst' : StackOk stack := fun c hc => hst c (List.mem_cons_of_mem _ hc)
    by_cases ht : top = '('
    · subst ht
      simp only [popToParen, if_true, List.count_cons_self]
      exact ⟨fun h => by omega, fun _ => ⟨stack, output, rfl, hst', rfl⟩⟩
    · have := ih hst' (output ++ [runeString top])
      simpa [popToParen, ht, List.count_cons] using this

theorem popOperators_depth (ch : Char) (stack : List Char) (hst : StackOk stack) :
    ∀ output : List Token, StackOk (popOperators ch stack output).1 ∧
      (popOperators ch stack output).1.count '(' = stack.count '(' := by
  induction stack with
  | nil => intro output; simp [popOperators, StackOk]
  | cons top stack ih =>
    intro output
    have hst' : StackOk stack := fun c hc => hst c (List.mem_cons_of_mem _ hc)
    unfold popOperators
    split
    · exact ⟨hst, rfl⟩
    · rename_i hnot
      have ht : top ≠ '(' := fun h => hnot (Or.inl h)
      have := ih hst' (output ++ [runeString top])
      simpa [List.count_cons, ht] using this

theorem scan_allowed (n : Nat) :
    ∀ input : List Char, input.length = n → (∀ c ∈ input, AllowedChar c) →
    ∀ (output : List Token) (stack : List Char), StackOk stack →
      (unbalanced (stack.count '(') input = true →
        scan input output stack = some (.error .mismatchedParentheses)) ∧
      (unbalanced (stack.count '(') input = false →
        ∃ output' stack', scan input output stack = some (.ok (output', stack')) ∧
          StackOk stack' ∧ stack'.count '(' + input.count ')' = stack.count '(' + input.count '(') := by
  induction n using Nat.strong_induction_on with
  | _ n ih =>
    intro input hlen hall output stack hst
    cases input with
    | nil =>
      refine ⟨fun h => ?_, fun _ => ⟨output, stack, scan_nil _ _, hst, rfl⟩⟩
      simp [unbalanced] at h
    | cons ch rest =>
      have hrest : ∀ c ∈ rest, AllowedChar c := fun c hc => hall c (List.mem_cons_of_mem _ hc)
      have hlt : rest.length < n := by simp at hlen; omega
      rw [scan_cons]
      rcases hall ch (List.mem_cons_self _ _) with hd | hop | rfl | rfl
      · -- a literal
        obtain ⟨run, hrun, hdig⟩ := readNumber_spec rest [ch]
        have hlen2 : (readNumber [ch] rest).2.length < n :=
          Nat.lt_of_le_of_lt (readNumber_length rest [ch]) hlt
        have hall2 : ∀ c ∈ (readNumber [ch] rest).2, AllowedChar c := fun c hc =>
          hrest c (by rw [hrun]; exact List.mem_append_right _ hc)
        have := ih _ hlen2 _ rfl hall2 (output ++ [(readNumber [ch] rest).1]) stack hst
        have hu : unbalanced (stack.count '(') (ch :: rest) =
            unbalanced (stack.count '(') (readNumber [ch] rest).2 := by
          simp only [unbalanced, if_neg (isDigit_ne_open hd), if_neg (isDigit_ne_close hd)]
          conv_lhs => rw [hrun]
          exact unbalanced_run run _ hdig _
        have hcnt := count_run run (readNumber [ch] rest).2 hdig
        rw [← hrun] at hcnt
        simp only [if_pos hd, hu, List.count_cons, if_neg (isDigit_ne_open hd),
          if_neg (isDigit_ne_close hd), hcnt, beq_iff_eq, Nat.add_zero]
        exact this
      · -- an operator
        have hpop := popOperators_depth ch stack hst output
        have hst2 : StackOk (ch :: (popOperators ch stack output).1) := by
          intro c hc
          rcases List.mem_cons.mp hc with rfl | hc
          · exact Or.inl hop
          · exact hpop.1 c hc
        have := ih _ hlt rest rfl hrest (popOperators ch stack output).2
          (ch :: (popOperators ch stack output).1) hst2
        simp only [List.count_cons, hop.ne_open, hpop.2, beq_iff_eq, if_false,
          Nat.add_zero] at this
        simp only [if_neg (by simp [hop.not_digit] : ¬ isDigit ch = true), if_neg hop.ne_open,
          if_neg hop.ne_close,
          if_pos (show ch = '+' ∨ ch = '-' ∨ ch = '*' ∨ ch = '/' from hop), unbalanced,
          List.count_cons, hop.ne_open, hop.ne_close, beq_iff_eq, if_false, Nat.add_zero]
        exact this
      · -- an opening parenthesis
        have hst2 : StackOk ('(' :: stack) := by
          intro c hc
          rcases List.mem_cons.mp hc with rfl | hc
          · exact Or.inr rfl
          · exact hst c hc
        have := ih _ hlt rest rfl hrest output ('(' :: stack) hst2
        simp only [List.count_cons_self] at this
        simp only [if_neg (by decide : ¬ isDigit '(' = true), if_true, unbalanced,
          List.count_cons_self]
        refine ⟨this.1, fun h => ?_⟩
        obtain ⟨o, s, hs, hso, hc⟩ := this.2 h
        refine ⟨o, s, hs, hso, ?_⟩
        have : List.count ')' ('(' :: rest) = List.count ')' rest := by
          simp [List.count_cons]
        omega
      · -- a closing parenthesis
        have hpop := popToParen_depth stack hst output
        simp only [if_neg (by decide : ¬ isDigit ')' = true),
          if_neg (by decide : ¬ ')' = '('), if_true, unbalanced, Bool.or_eq_true, beq_iff_eq,
          Bool.or_eq_false_iff, beq_eq_false_iff_ne, ne_eq]
        have hcnt : List.count '(' (')' :: rest) = List.count '(' rest := by
          simp [List.count_cons]
        by_cases hz : stack.count '(' = 0
        · have hf := hpop.1 hz
          have : popToParen stack output = (false, (popToParen stack output).2) := by
            rw [← hf]
          rw [this]
          exact ⟨fun _ => rfl, fun h => absurd hz h.1⟩
        · obtain ⟨s', o', hp, hs', hc'⟩ := hpop.2 (Nat.pos_of_ne_zero hz)
          rw [hp]
          have := ih _ hlt rest rfl hrest o' s' hs'
          have hd : stack.count '(' - 1 = s'.count '(' := by omega
          rw [hd]
          refine ⟨fun h => ?_, fun h => ?_⟩
          · rcases h with h | h
            · exact absurd h hz
            · exact this.1 h
          · obtain ⟨o, s, hs, hso, hc⟩ := this.2 h.2
            refine ⟨o, s, hs, hso, ?_⟩
            rw [List.count_cons_self, hcnt]
            omega
theorem drain_depth (stack : List Char) (hst : StackOk stack) :
    ∀ output : List Token,
      (stack.count '(' = 0 → ∃ tokens, drain stack output = .ok tokens) ∧
      (0 < stack.count '(' → drain stack output = .error .mismatchedParenthesesAtEnd) := by
  induction stack with
  | nil => intro output; simp [drain]
  | cons top stack ih =>
    intro output
    have hst' : StackOk stack := fun c hc => hst c (List.mem_cons_of_mem _ hc)
    rcases hst top (List.mem_cons_self _ _) with hop | rfl
    · have := ih hst' (output ++ [runeString top])
      simpa [drain, hop.ne_open, hop.ne_close, List.count_cons] using this
    · simp [drain]

theorem infixToPostfix_allowed (input : List Char) (hall : ∀ c ∈ input, AllowedChar c) :
    (unbalanced 0 input = true ∧
      infixToPostfix input = some (.error .mismatchedParentheses)) ∨
    (unbalanced 0 input = false ∧ input.count ')' < input.count '(' ∧
      infixToPostfix input = some (.error .mismatchedParenthesesAtEnd)) ∨
    (unbalanced 0 input = false ∧ ¬ input.count ')' < input.count '(' ∧
      ∃ tokens, infixToPostfix input = some (.ok tokens)) := by
  have hscan := scan_allowed input.length input rfl hall [] []
    (fun c hc => absurd hc (List.not_mem_nil c))
  have hdef : infixToPostfix input =
      match scan input [] [] with
      | none => none
      | some (.error e) => some (.error e)
      | some (.ok (output, stack)) => some (drain stack output) := rfl
  cases hu : unbalanced 0 input with
  | true =>
    refine Or.inl ⟨rfl, ?_⟩
    rw [hdef, hscan.1 hu]
  | false =>
    obtain ⟨o, st, hs, hso, hc⟩ := hscan.2 hu
    have hd := drain_depth st hso o
    simp only [List.count_nil, Nat.zero_add] at hc
    by_cases hlt : input.count ')' < input.count '('
    · refine Or.inr (Or.inl ⟨rfl, hlt, ?_⟩)
      rw [hdef, hs]
      simp only
      rw [hd.2 (by omega)]
    · refine Or.inr (Or.inr ⟨rfl, hlt, ?_⟩)
      obtain ⟨tokens, ht⟩ := hd.1 (by omega)
      exact ⟨tokens, by rw [hdef, hs]; simp only; rw [ht]⟩

/-- C6: for every string over the allowed bytes (digits, `.`, the operators,
the parentheses), `infixToPostfix` fails with `mismatched parentheses` if and
only if some prefix of the string holds more `)` than `(`; and
`evaluate("1+2)")` fails with that error. -/
theorem mismatchedParentheses_iff (input : List Char) (hall : ∀ c ∈ input, AllowedChar c) :
    (infixToPostfix input = some (.error .mismatchedParentheses) ↔
      ∃ p, p <+: input ∧ p.count '(' < p.count ')') ∧
    ∀ lib : Float64Lib, evaluate lib "1+2)".toList = some (.error .mismatchedParentheses) := by
  refine ⟨?_, fun lib => evaluate_of_error lib _ _ (by decide) (by decide) (by decide)⟩
  have hiff := unbalanced_iff input 0
  simp only [Nat.add_zero] at hiff
  rw [← hiff]
  rcases infixToPostfix_allowed input hall with ⟨hu, h⟩ | ⟨hu, _, h⟩ | ⟨hu, _, tokens, h⟩
  · simp [hu, h]
  · simp [hu, h]
  · simp [hu, h]

/-- C6 on `(1+2))*3`: the prefix `(1+2))` holds two `)` and one `(`. -/
theorem mismatchedParentheses_iff_witness :
    (infixToPostfix "(1+2))*3".toList = some (.error .mismatchedParentheses) ↔
      ∃ p, p <+: "(1+2))*3".toList ∧ p.count '(' < p.count ')') ∧
    infixToPostfix "(1+2))*3".toList = some (.error .mismatchedParentheses) :=
  ⟨(mismatchedParentheses_iff "(1+2))*3".toList (by decide)).1, by decide⟩

/-- C7: for every string over the allowed bytes in which no prefix holds more
`)` than `(`, `infixToPostfix` fails with `mismatched parentheses in the end`
if and only if the whole string holds more `(` than `)`, and otherwise
succeeds; and `evaluate("(1+2")` fails with that error. -/
theorem mismatchedParenthesesAtEnd_iff (input : List Char)
    (hall : ∀ c ∈ input, AllowedChar c)
    (hpre : ∀ p, p <+: input → p.count ')' ≤ p.count '(') :
    (infixToPostfix input = some (.error .mismatchedParenthesesAtEnd) ↔
      input.count ')' < input.count '(') ∧
    (¬ input.count ')' < input.count '(' → ∃ tokens, infixToPostfix input = some (.ok tokens)) ∧
    ∀ lib : Float64Lib,
      evaluate lib "(1+2".toList = some (.error .mismatchedParenthesesAtEnd) := by
  refine ⟨?_, ?_, fun lib => evaluate_of_error lib _ _ (by decide) (by decide) (by decide)⟩
  · rcases infixToPostfix_allowed input hall with ⟨hu, _⟩ | ⟨_, hlt, h⟩ | ⟨_, hlt, tokens, h⟩
    · obtain ⟨p, hp, hbad⟩ := (unbalanced_iff input 0).mp hu
      exact absurd (hpre p hp) (by omega)
    · simp [h, hlt]
    · simp [h, hlt]
  · intro hge
    rcases infixToPostfix_allowed input hall with ⟨hu, _⟩ | ⟨_, hlt, _⟩ | ⟨_, _, h⟩
    · obtain ⟨p, hp, hbad⟩ := (unbalanced_iff input 0).mp hu
      exact absurd (hpre p hp) (by omega)
    · exact absurd hlt hge
    · exact h

theorem prefix_balanced_of_not_unbalanced (input : List Char) (h : unbalanced 0 input = false) :
    ∀ p, p <+: input → p.count ')' ≤ p.count '(' := by
  intro p hp
  by_contra hlt
  have := (unbalanced_iff input 0).mpr ⟨p, hp, by omega⟩
  rw [h] at this
  cases this

/-- C7 on `((1+2)*3`, which fails at the end, and on `(1+2)*3`, which
succeeds. -/
theorem mismatchedParenthesesAtEnd_iff_witness :
    infixToPostfix "((1+2)*3".toList = some (.error .mismatchedParenthesesAtEnd) ∧
    ∃ tokens, infixToPostfix "(1+2)*3".toList = some (.ok tokens) :=
  ⟨(mismatchedParenthesesAtEnd_iff "((1+2)*3".toList (by decide)
      (prefix_balanced_of_not_unbalanced _ (by decide))).1.mpr (by decide),
   (mismatchedParenthesesAtEnd_iff "(1+2)*3".toList (by decide)
      (prefix_balanced_of_not_unbalanced _ (by decide))).2.1 (by decide)⟩

/-! ## Spaces, whitespace and the length limit -/

/-- C8: `evaluate` does not strip a tab: on `1+<tab>2` it fails with
`invalid character`, while on the same text without whitespace it returns 3
(exact arithmetic). -/
theorem evaluate_tab_not_stripped :
    evaluate exactLib "1+\t2".toList = some (.error (.invalidCharacter '\t')) ∧
    removeWhitespace "1+\t2".toList = "1+2".toList ∧
    evaluate exactLib (removeWhitespace "1+\t2".toList) = some (.ok (Frac.ofInt 3)) := by
  decide

theorem removeWhitespace_length_le (expr : List Char) :
    (removeWhitespace expr).length ≤ (removeSpaces expr).length := by
  have : removeWhitespace expr = (removeSpaces expr).filter (fun c => !c.isWhitespace) := by
    unfold removeWhitespace removeSpaces
    rw [List.filter_filter]
    congr 1
    funext c
    by_cases hc : c = ' '
    · subst hc; decide
    · simp [hc]
  rw [this]
  exact List.length_filter_le _ _

/-- C9: for every string whose length exceeds 1000 once its spaces are
removed (a fortiori once all its whitespace is removed), `evaluate` fails with
`expression too long`, whatever the string holds. -/
theorem evaluate_tooLong (lib : Float64Lib) (expr : List Char)
    (h : 1000 < (removeSpaces expr).length ∨ 1000 < (removeWhitespace expr).length) :
    evaluate lib expr = some (.error .tooLong) := by
  have hlen : (removeSpaces expr).length > 1000 := by
    rcases h with h | h
    · exact h
    · exact Nat.lt_of_lt_of_le h (removeWhitespace_length_le expr)
  simp [evaluate, hlen]

theorem removeSpaces_replicate (n m : Nat) :
    removeSpaces (List.replicate n ')' ++ List.replicate m ' ') = List.replicate n ')' := by
  unfold removeSpaces
  rw [List.filter_append]
  have h1 : ∀ k, List.filter (fun c => c != ' ') (List.replicate k ')') = List.replicate k ')' := by
    intro k
    rw [List.filter_eq_self]
    intro c hc
    rw [List.eq_of_mem_replicate hc]
    decide
  have h2 : ∀ k, List.filter (fun c => c != ' ') (List.replicate k ' ') = [] := by
    intro k
    rw [List.filter_eq_nil_iff]
    intro c hc
    rw [List.eq_of_mem_replicate hc]
    decide
  rw [h1, h2, List.append_nil]

/-- C9 on 1001 closing parentheses separated by spaces: the length check comes
before the parser, which would report mismatched parentheses. -/
theorem evaluate_tooLong_witness :
    evaluate exactLib (List.replicate 1001 ')' ++ List.replicate 5 ' ') =
      some (.error .tooLong) ∧
    infixToPostfix [')'] = some (.error .mismatchedParentheses) :=
  ⟨evaluate_tooLong exactLib _ (Or.inl (by
      rw [removeSpaces_replicate, List.length_replicate]
      decide)), by decide⟩

/-! ## Literals that do not parse -/

/-- C10, as stated, fails: `.` does not parse, yet `evaluate(".+")` fails with
`invalid expression`, not `invalid number`: the operator finds one entry on
the stack before any literal is parsed. -/
theorem invalidNumber_counterexample :
    exactLib.parseFloat ".".toList = none ∧
    infixToPostfix ".+".toList = some (.ok [['.'], ['+']]) ∧
    evaluatePostfix exactLib [['.'], ['+']] = .error .invalidExpression ∧
    evaluate exactLib ".+".toList = some (.error .invalidExpression) ∧
    evaluate exactLib ".+".toList ≠ some (.error .invalidNumber) := by
  decide

theorem evaluatePostfix_of_error (lib : Float64Lib) (tokens : List Token) (e : CalcError)
    (h : evalTokens lib tokens [] = .error e) : evaluatePostfix lib tokens = .error e := by
  unfold evaluatePostfix
  rw [h]

/-- C10, amended: when the postfix evaluation reaches an operator token with
two entries on the stack and one of them does not parse as a number, it fails
with `invalid number`; a literal is not parsed when it is pushed, so
`evaluate("1.2.3+1")` fails with `invalid number` while `evaluate(".+")`,
whose operator finds a single entry, fails with `invalid expression`. -/
theorem invalidNumber_at_operator (lib : Float64Lib)
    (h : lib.parseFloat "1.2.3".toList = none) :
    (∀ (pre rest : List Token) (token aStr bStr : Token) (stack : List Token),
      evalTokens lib pre [] = .ok (bStr :: aStr :: stack) →
      (token = ['+'] ∨ token = ['-'] ∨ token = ['*'] ∨ token = ['/']) →
      (lib.parseFloat aStr = none ∨ lib.parseFloat bStr = none) →
      evaluatePostfix lib (pre ++ token :: rest) = .error .invalidNumber) ∧
    evaluate lib "1.2.3+1".toList = some (.error .invalidNumber) ∧
    evaluate lib ".+".toList = some (.error .invalidExpression) := by
  have hgen : ∀ (pre rest : List Token) (token aStr bStr : Token) (stack : List Token),
      evalTokens lib pre [] = .ok (bStr :: aStr :: stack) →
      (token = ['+'] ∨ token = ['-'] ∨ token = ['*'] ∨ token = ['/']) →
      (lib.parseFloat aStr = none ∨ lib.parseFloat bStr = none) →
      evaluatePostfix lib (pre ++ token :: rest) = .error .invalidNumber := by
    intro pre rest token aStr bStr stack hpre htok hbad
    have : evalTokens lib (pre ++ token :: rest) [] = .error .invalidNumber := by
      rw [evalTokens_append, hpre]
      simp only
      rw [evalTokens.eq_def]
      simp only [if_pos htok]
      rcases hbad with hbad | hbad
      · rw [hbad]
      · rw [hbad]
        cases lib.parseFloat aStr <;> rfl
    exact evaluatePostfix_of_error lib _ _ this
  refine ⟨hgen, ?_, ?_⟩
  · rw [evaluate_of_tokens lib "1.2.3+1".toList ["1.2.3".toList, "1".toList, ['+']]
      (by decide) (by decide) (by decide)]
    refine congrArg some (hgen ["1.2.3".toList, "1".toList] [] ['+'] "1.2.3".toList "1".toList []
      ?_ (Or.inl rfl) (Or.inl h))
    rw [evalTokens_literal lib (by decide) (by decide),
      evalTokens_literal lib (by decide) (by decide), evalTokens]
  · rw [evaluate_of_tokens lib ".+".toList [".".toList, ['+']]
      (by decide) (by decide) (by decide)]
    refine congrArg some ?_
    have : evalTokens lib [".".toList, ['+']] [] = .error .invalidExpression := by
      rw [evalTokens_literal lib (by decide) (by decide), evalTokens.eq_def]
      simp
    exact evaluatePostfix_of_error lib _ _ this

/-- C10 amended, with exact arithmetic, and the general statement at the
postfix sequence `2 1..5 *`. -/
theorem invalidNumber_at_operator_witness :
    evaluatePostfix exactLib ["2".toList, "1..5".toList, ['*']] = .error .invalidNumber ∧
    evaluate exactLib "1.2.3+1".toList = some (.error .invalidNumber) ∧
    evaluate exactLib ".+".toList = some (.error .invalidExpression) :=
  have h := invalidNumber_at_operator exactLib (by decide)
  ⟨h.1 ["2".toList, "1..5".toList] [] ['*'] "2".toList "1..5".toList [] (by decide)
    (Or.inr (Or.inr (Or.inl rfl))) (Or.inr (by decide)), h.2⟩

/-- A literal that does not parse and is the whole expression: the error of
`ParseFloat` is returned as it is, not `invalid number`. -/
theorem evaluate_malformed_literal :
    evaluate exactLib "1.2.3".toList = some (.error (.parseFloatError "1.2.3".toList)) := by
  decide

/-! ## Operand counts in the evaluator -/

theorem evalTokens_operator_shape (lib : Float64Lib) (token s1 s2 : Token)
    (htok : token = ['+'] ∨ token = ['-'] ∨ token = ['*'] ∨ token = ['/'])
    (rest stack : List Token) :
    (∃ s, evalTokens lib (token :: rest) (s2 :: s1 :: stack) = evalTokens lib rest (s :: stack)) ∨
    evalTokens lib (token :: rest) (s2 :: s1 :: stack) = .error .invalidNumber ∨
    evalTokens lib (token :: rest) (s2 :: s1 :: stack) = .error .divisionByZero := by
  rw [evalTokens.eq_def]
  simp only [if_pos htok]
  cases ha : lib.parseFloat s1 with
  | none => exact Or.inr (Or.inl rfl)
  | some a =>
    cases hb : lib.parseFloat s2 with
    | none => exact Or.inr (Or.inl rfl)
    | some b =>
      simp only
      cases hres : applyOperator lib token a b with
      | ok res => exact Or.inl ⟨lib.sprint res, rfl⟩
      | error e =>
        refine Or.inr (Or.inr ?_)
        simp only
        unfold applyOperator at hres
        split at hres
        · cases hres
        · split at hres
          · cases hres
          · split at hres
            · cases hres
            · split at hres
              · split at hres
                · cases hres; rfl
                · cases hres
              · cases hres

theorem evalTokens_node_shape (lib : Float64Lib) (left right : List Token) (token : Token)
    (htok : token = ['+'] ∨ token = ['-'] ∨ token = ['*'] ∨ token = ['/'])
    (hl : ∀ rest stack : List Token,
      (∃ s, evalTokens lib (left ++ rest) stack = evalTokens lib rest (s :: stack)) ∨
      evalTokens lib (left ++ rest) stack = .error .invalidNumber ∨
      evalTokens lib (left ++ rest) stack = .error .divisionByZero)
    (hr : ∀ rest stack : List Token,
      (∃ s, evalTokens lib (right ++ rest) stack = evalTokens lib rest (s :: stack)) ∨
      evalTokens lib (right ++ rest) stack = .error .invalidNumber ∨
      evalTokens lib (right ++ rest) stack = .error .divisionByZero)
    (rest stack : List Token) :
    (∃ s, evalTokens lib (left ++ right ++ [token] ++ rest) stack =
      evalTokens lib rest (s :: stack)) ∨
    evalTokens lib (left ++ right ++ [token] ++ rest) stack = .error .invalidNumber ∨
    evalTokens lib (left ++ right ++ [token] ++ rest) stack = .error .divisionByZero := by
  simp only [List.append_assoc, List.singleton_append]
  rcases hl (right ++ token :: rest) stack with ⟨s1, h1⟩ | h1 | h1
  · rw [h1]
    rcases hr (token :: rest) (s1 :: stack) with ⟨s2, h2⟩ | h2 | h2
    · rw [h2]
      exact evalTokens_operator_shape lib token s1 s2 htok rest stack
    · exact Or.inr (Or.inl h2)
    · exact Or.inr (Or.inr h2)
  · exact Or.inr (Or.inl h1)
  · exact Or.inr (Or.inr h1)

theorem evalTokens_syn_shape (lib : Float64Lib) {n : NT} (x : Syn n) :
    x.WellFormed → ∀ rest stack : List Token,
      (∃ s, evalTokens lib (x.rpn ++ rest) stack = evalTokens lib rest (s :: stack)) ∨
      evalTokens lib (x.rpn ++ rest) stack = .error .invalidNumber ∨
      evalTokens lib (x.rpn ++ rest) stack = .error .divisionByZero := by
  induction x with
  | add e t ihe iht =>
    rintro ⟨he, ht⟩
    exact evalTokens_node_shape lib e.rpn t.rpn ['+'] (Or.inl rfl) (ihe he) (iht ht)
  | sub e t ihe iht =>
    rintro ⟨he, ht⟩
    exact evalTokens_node_shape lib e.rpn t.rpn ['-'] (Or.inr (Or.inl rfl)) (ihe he) (iht ht)
  | term t iht => exact iht
  | mul t f iht ihf =>
    rintro ⟨ht, hf⟩
    exact evalTokens_node_shape lib t.rpn f.rpn ['*'] (Or.inr (Or.inr (Or.inl rfl)))
      (iht ht) (ihf hf)
  | div t f iht ihf =>
    rintro ⟨ht, hf⟩
    exact evalTokens_node_shape lib t.rpn f.rpn ['/'] (Or.inr (Or.inr (Or.inr rfl)))
      (iht ht) (ihf hf)
  | factor f ihf => exact ihf
  | lit s =>
    rintro ⟨hne, hs⟩ rest stack
    exact Or.inl ⟨s, by simpa [Syn.rpn] using evalTokens_literal lib hne hs rest stack⟩
  | paren e ihe => exact ihe

theorem evaluatePostfix_of_single (lib : Float64Lib) (tokens : List Token) (s : Token)
    (h : evalTokens lib tokens [] = .ok [s]) :
    evaluatePostfix lib tokens =
      match lib.parseFloat s with
      | some v => .ok v
      | none => .error (.parseFloatError s) := by
  unfold evaluatePostfix
  rw [h]

/-- C11, as stated, fails: the parser succeeds on `1+` and on the empty
string, and the evaluator fails on the emitted sequences with `invalid
expression` and `invalid expression final`. -/
theorem parser_success_counterexample :
    infixToPostfix "1+".toList = some (.ok [['1'], ['+']]) ∧
    evaluatePostfix exactLib [['1'], ['+']] = .error .invalidExpression ∧
    infixToPostfix [] = some (.ok []) ∧
    evaluatePostfix exactLib [] = .error .invalidExpressionFinal := by
  decide

/-- C11, amended: for every parse tree of the grammar the parser succeeds and
the evaluator, on the emitted sequence, never fails with `invalid expression`
nor with `invalid expression final`: it consumes the sequence to exactly one
residual entry, or stops at a literal that does not parse or at a division by
zero. -/
theorem evaluator_consumes_grammar (lib : Float64Lib) (e : Syn .E) (hwf : e.WellFormed) :
    infixToPostfix e.text = some (.ok e.rpn) ∧
    ((∃ s, evalTokens lib e.rpn [] = .ok [s]) ∨
      evalTokens lib e.rpn [] = .error .invalidNumber ∨
      evalTokens lib e.rpn [] = .error .divisionByZero) ∧
    evaluatePostfix lib e.rpn ≠ .error .invalidExpression ∧
    evaluatePostfix lib e.rpn ≠ .error .invalidExpressionFinal := by
  have hshape : (∃ s, evalTokens lib e.rpn [] = .ok [s]) ∨
      evalTokens lib e.rpn [] = .error .invalidNumber ∨
      evalTokens lib e.rpn [] = .error .divisionByZero := by
    have := evalTokens_syn_shape lib e hwf [] []
    simpa [evalTokens] using this
  refine ⟨infixToPostfix_syn e hwf, hshape, ?_, ?_⟩
  · rcases hshape with ⟨s, h⟩ | h | h
    · rw [evaluatePostfix_of_single lib _ s h]
      cases lib.parseFloat s <;> simp
    · rw [evaluatePostfix_of_error lib _ _ h]; simp
    · rw [evaluatePostfix_of_error lib _ _ h]; simp
  · rcases hshape with ⟨s, h⟩ | h | h
    · rw [evaluatePostfix_of_single lib _ s h]
      cases lib.parseFloat s <;> simp
    · rw [evaluatePostfix_of_error lib _ _ h]; simp
    · rw [evaluatePostfix_of_error lib _ _ h]; simp

/-- C11 amended on `(2+3)*4-10/2.5`, evaluated with exact arithmetic. -/
theorem evaluator_consumes_grammar_witness :
    infixToPostfix sampleExpr.text = some (.ok sampleExpr.rpn) ∧
    ((∃ s, evalTokens exactLib sampleExpr.rpn [] = .ok [s]) ∨
      evalTokens exactLib sampleExpr.rpn [] = .error .invalidNumber ∨
      evalTokens exactLib sampleExpr.rpn [] = .error .divisionByZero) ∧
    evaluatePostfix exactLib sampleExpr.rpn ≠ .error .invalidExpression ∧
    evaluatePostfix exactLib sampleExpr.rpn ≠ .error .invalidExpressionFinal :=
  evaluator_consumes_grammar exactLib sampleExpr sampleExpr_wellFormed

/-- C14: whenever the postfix evaluation reaches an operator token with fewer
than two entries on the stack, no earlier token having failed, it fails with
`invalid expression`; and `evaluate("1+")` fails with that error. -/
theorem invalidExpression_at_operator (lib : Float64Lib) :
    (∀ (pre rest : List Token) (token : Token) (stack : List Token),
      evalTokens lib pre [] = .ok stack → stack.length < 2 →
      (token = ['+'] ∨ token = ['-'] ∨ token = ['*'] ∨ token = ['/']) →
      evaluatePostfix lib (pre ++ token :: rest) = .error .invalidExpression) ∧
    evaluate lib "1+".toList = some (.error .invalidExpression) := by
  have hgen : ∀ (pre rest : List Token) (token : Token) (stack : List Token),
      evalTokens lib pre [] = .ok stack → stack.length < 2 →
      (token = ['+'] ∨ token = ['-'] ∨ token = ['*'] ∨ token = ['/']) →
      evaluatePostfix lib (pre ++ token :: rest) = .error .invalidExpression := by
    intro pre rest token stack hpre hlen htok
    apply evaluatePostfix_of_error
    rw [evalTokens_append, hpre]
    simp only
    rw [evalTokens.eq_def]
    simp only [if_pos htok]
    match stack, hlen with
    | [], _ => rfl
    | [_], _ => rfl
    | _ :: _ :: _, h => exact absurd h (by simp)
  refine ⟨hgen, ?_⟩
  rw [evaluate_of_tokens lib "1+".toList ["1".toList, ['+']] (by decide) (by decide) (by decide)]
  refine congrArg some (hgen ["1".toList] [] ['+'] ["1".toList] ?_ (by decide) (Or.inl rfl))
  rw [evalTokens_literal lib (by decide) (by decide), evalTokens]

/-- C15, as stated, fails: the sequence `1.2.3` is processed without failure
and leaves exactly one entry on the stack, yet no value is returned: the entry
does not parse. -/
theorem single_entry_counterexample :
    evalTokens exactLib ["1.2.3".toList] [] = .ok ["1.2.3".toList] ∧
    evaluatePostfix exactLib ["1.2.3".toList] = .error (.parseFloatError "1.2.3".toList) ∧
    ¬ ∃ v, evaluatePostfix exactLib ["1.2.3".toList] = .ok v := by
  refine ⟨by decide, by decide, ?_⟩
  rintro ⟨v, hv⟩
  rw [show evaluatePostfix exactLib ["1.2.3".toList] =
    .error (.parseFloatError "1.2.3".toList) from by decide] at hv
  cases hv

/-- C15, amended: for every postfix token sequence processed without failure,
`evaluatePostfix` returns a value if and only if exactly one entry remains on
the stack and that entry parses as a number, the value being that number; it
fails with `invalid expression final` if and only if the number of remaining
entries is not one; and `evaluate("")`, `evaluate("()")` and
`evaluate("(1)(2)")` fail with `invalid expression final`. -/
theorem evaluatePostfix_final (lib : Float64Lib) (tokens stack : List Token)
    (h : evalTokens lib tokens [] = .ok stack) :
    (∀ v, evaluatePostfix lib tokens = .ok v ↔ ∃ s, stack = [s] ∧ lib.parseFloat s = some v) ∧
    (evaluatePostfix lib tokens = .error .invalidExpressionFinal ↔ stack.length ≠ 1) ∧
    evaluate lib [] = some (.error .invalidExpressionFinal) ∧
    evaluate lib "()".toList = some (.error .invalidExpressionFinal) ∧
    evaluate lib "(1)(2)".toList = some (.error .invalidExpressionFinal) := by
  have hfinal : ∀ toks : List Token, ∀ st : List Token, evalTokens lib toks [] = .ok st →
      st.length ≠ 1 → evaluatePostfix lib toks = .error .invalidExpressionFinal := by
    intro toks st hst hlen
    unfold evaluatePostfix
    rw [hst]
    match st, hlen with
    | [], _ => rfl
    | [_], h => exact absurd rfl h
    | _ :: _ :: _, _ => rfl
  refine ⟨?_, ?_, ?_, ?_, ?_⟩
  · intro v
    match stack, h with
    | [], h => rw [hfinal tokens [] h (by decide)]; simp
    | [s], h =>
      rw [evaluatePostfix_of_single lib tokens s h]
      cases hp : lib.parseFloat s <;> simp [hp]
    | _ :: _ :: _, h => rw [hfinal tokens _ h (by simp)]; simp
  · match stack, h with
    | [], h => rw [hfinal tokens [] h (by decide)]; simp
    | [s], h =>
      rw [evaluatePostfix_of_single lib tokens s h]
      cases lib.parseFloat s <;> simp
    | _ :: _ :: _, h => rw [hfinal tokens _ h (by simp)]; simp
  · rw [evaluate_of_tokens lib [] [] (by decide) (by decide) (by decide)]
    exact congrArg some (hfinal [] [] rfl (by decide))
  · rw [evaluate_of_tokens lib "()".toList [] (by decide) (by decide) (by decide)]
    exact congrArg some (hfinal [] [] rfl (by decide))
  · rw [evaluate_of_tokens lib "(1)(2)".toList ["1".toList, "2".toList]
      (by decide) (by decide) (by decide)]
    refine congrArg some (hfinal _ ["2".toList, "1".toList] ?_ (by decide))
    rw [evalTokens_literal lib (by decide) (by decide),
      evalTokens_literal lib (by decide) (by decide), evalTokens]

/-- C15 amended on the sequence `1 2 +` with exact arithmetic: one entry, `3`,
remains and the value is 3. -/
theorem evaluatePostfix_final_witness :
    evaluatePostfix exactLib ["1".toList, "2".toList, ['+']] = .ok (Frac.ofInt 3) ∧
    evaluate exactLib "(1)(2)".toList = some (.error .invalidExpressionFinal) :=
  have h := evaluatePostfix_final exactLib ["1".toList, "2".toList, ['+']] ["3".toList]
    (by decide)
  ⟨(h.1 (Frac.ofInt 3)).mpr ⟨"3".toList, rfl, by decide⟩, h.2.2.2.2⟩

/-! ## Bytes outside the alphabet -/

theorem readNumber_append (p rest : List Char) (hrest : NoDigitHead rest) :
    ∀ num : Token, readNumber num (p ++ rest) =
      ((readNumber num p).1, (readNumber num p).2 ++ rest) := by
  induction p with
  | nil =>
    intro num
    have := readNumber_run [] rest (by simp) hrest num
    simpa [readNumber] using this
  | cons c p ih =>
    intro num
    simp only [List.cons_append, readNumber]
    split
    · exact ih _
    · rfl

theorem scan_allowed_append (n : Nat) :
    ∀ p : List Char, p.length = n → (∀ c ∈ p, AllowedChar c) →
    ∀ rest : List Char, NoDigitHead rest →
    ∀ (output : List Token) (stack : List Char), StackOk stack →
      (unbalanced (stack.count '(') p = true →
        scan (p ++ rest) output stack = some (.error .mismatchedParentheses)) ∧
      (unbalanced (stack.count '(') p = false →
        ∃ output' stack', scan (p ++ rest) output stack = scan rest output' stack' ∧
          StackOk stack' ∧ stack'.count '(' + p.count ')' = stack.count '(' + p.count '(') := by
  induction n using Nat.strong_induction_on with
  | _ n ih =>
    intro p hlen hall rest hrest output stack hst
    cases p with
    | nil =>
      refine ⟨fun h => ?_, fun _ => ⟨output, stack, rfl, hst, rfl⟩⟩
      simp [unbalanced] at h
    | cons ch p =>
      have hp : ∀ c ∈ p, AllowedChar c := fun c hc => hall c (List.mem_cons_of_mem _ hc)
      have hlt : p.length < n := by simp at hlen; omega
      rw [List.cons_append, scan_cons]
      rcases hall ch (List.mem_cons_self _ _) with hd | hop | rfl | rfl
      · -- a literal
        obtain ⟨run, hrun, hdig⟩ := readNumber_spec p [ch]
        have hlen2 : (readNumber [ch] p).2.length < n :=
          Nat.lt_of_le_of_lt (readNumber_length p [ch]) hlt
        have hall2 : ∀ c ∈ (readNumber [ch] p).2, AllowedChar c := fun c hc =>
          hp c (by rw [hrun]; exact List.mem_append_right _ hc)
        have := ih _ hlen2 _ rfl hall2 rest hrest (output ++ [(readNumber [ch] p).1]) stack hst
        have hu : unbalanced (stack.count '(') (ch :: p) =
            unbalanced (stack.count '(') (readNumber [ch] p).2 := by
          simp only [unbalanced, if_neg (isDigit_ne_open hd), if_neg (isDigit_ne_close hd)]
          conv_lhs => rw [hrun]
          exact unbalanced_run run _ hdig _
        have hcnt := count_run run (readNumber [ch] p).2 hdig
        rw [← hrun] at hcnt
        simp only [if_pos hd, hu, List.count_cons, if_neg (isDigit_ne_open hd),
          if_neg (isDigit_ne_close hd), hcnt, beq_iff_eq, Nat.add_zero,
          readNumber_append p rest hrest]
        exact this
      · -- an operator
        have hpop := popOperators_depth ch stack hst output
        have hst2 : StackOk (ch :: (popOperators ch stack output).1) := by
          intro c hc
          rcases List.mem_cons.mp hc with rfl | hc
          · exact Or.inl hop
          · exact hpop.1 c hc
        have := ih _ hlt p rfl hp rest hrest (popOperators ch stack output).2
          (ch :: (popOperators ch stack output).1) hst2
        simp only [List.count_cons, hop.ne_open, hpop.2, beq_iff_eq, if_false,
          Nat.add_zero] at this
        simp only [if_neg (by simp [hop.not_digit] : ¬ isDigit ch = true), if_neg hop.ne_open,
          if_neg hop.ne_close,
          if_pos (show ch = '+' ∨ ch = '-' ∨ ch = '*' ∨ ch = '/' from hop), unbalanced,
          List.count_cons, hop.ne_open, hop.ne_close, beq_iff_eq, if_false, Nat.add_zero]
        exact this
      · -- an opening parenthesis
        have hst2 : StackOk ('(' :: stack) := by
          intro c hc
          rcases List.mem_cons.mp hc with rfl | hc
          · exact Or.inr rfl
          · exact hst c hc
        have := ih _ hlt p rfl hp rest hrest output ('(' :: stack) hst2
        simp only [List.count_cons_self] at this
        simp only [if_neg (by decide : ¬ isDigit '(' = true), if_true, unbalanced,
          List.count_cons_self]
        refine ⟨this.1, fun h => ?_⟩
        obtain ⟨o, s, hs, hso, hc⟩ := this.2 h
        refine ⟨o, s, hs, hso, ?_⟩
        have : List.count ')' ('(' :: p) = List.count ')' p := by
          simp [List.count_cons]
        omega
      · -- a closing parenthesis
        have hpop := popToParen_depth stack hst output
        simp only [if_neg (by decide : ¬ isDigit ')' = true),
          if_neg (by decide : ¬ ')' = '('), if_true, unbalanced, Bool.or_eq_true, beq_iff_eq,
          Bool.or_eq_false_iff, beq_eq_false_iff_ne, ne_eq]
        have hcnt : List.count '(' (')' :: p) = List.count '(' p := by
          simp [List.count_cons]
        by_cases hz : stack.count '(' = 0
        · have hf := hpop.1 hz
          have : popToParen stack output = (false, (popToParen stack output).2) := by
            rw [← hf]
          rw [this]
          exact ⟨fun _ => rfl, fun h => absurd hz h.1⟩
        · obtain ⟨s', o', hp', hs', hc'⟩ := hpop.2 (Nat.pos_of_ne_zero hz)
          rw [hp']
          have := ih _ hlt p rfl hp rest hrest o' s' hs'
          have hd : stack.count '(' - 1 = s'.count '(' := by omega
          rw [hd]
          refine ⟨fun h => ?_, fun h => ?_⟩
          · rcases h with h | h
            · exact absurd h hz
            · exact this.1 h
          · obtain ⟨o, s, hs, hso, hc⟩ := this.2 h.2
            refine ⟨o, s, hs, hso, ?_⟩
            rw [List.count_cons_self, hcnt]
            omega

/-- C12: for every string `p ++ [ch] ++ rest` where `ch` is none of the
digits, `.`, the operators and the parentheses, `p` holds only such bytes and
no prefix of `p` holds more `)` than `(`, `infixToPostfix` fails with
`invalid character` naming the rune `ch`; the text `string(ch)` of the
message is the byte `ch` itself when `ch` is ASCII. -/
theorem invalidCharacter_first (p rest : List Char) (ch : Char)
    (hall : ∀ c ∈ p, AllowedChar c) (hpre : ∀ q, q <+: p → q.count ')' ≤ q.count '(')
    (hch : ¬ AllowedChar ch) :
    infixToPostfix (p ++ ch :: rest) = some (.error (.invalidCharacter ch)) ∧
    (ch.toNat < 0x80 → runeString ch = [ch]) := by
  refine ⟨?_, fun h => by simp [runeString, h]⟩
  have hdig : isDigit ch = false := by
    cases h : isDigit ch with
    | false => rfl
    | true => exact absurd (Or.inl h) hch
  have hu : unbalanced 0 p = false := by
    cases h : unbalanced 0 p with
    | false => rfl
    | true =>
      obtain ⟨q, hq, hbad⟩ := (unbalanced_iff p 0).mp h
      exact absurd (hpre q hq) (by omega)
  obtain ⟨o, s, hs, -, -⟩ := (scan_allowed_append p.length p rfl hall (ch :: rest) hdig [] []
    (fun c hc => absurd hc (List.not_mem_nil c))).2 hu
  have hstep : scan (ch :: rest) o s = some (.error (.invalidCharacter ch)) := by
    rw [scan_cons, if_neg (by simp [hdig]), if_neg (fun h => hch (Or.inr (Or.inr (Or.inl h)))),
      if_neg (fun h => hch (Or.inr (Or.inr (Or.inr h)))),
      if_neg (show ¬ (ch = '+' ∨ ch = '-' ∨ ch = '*' ∨ ch = '/') from
        fun h => hch (Or.inr (Or.inl h)))]
  have hdef : infixToPostfix (p ++ ch :: rest) =
      match scan (p ++ ch :: rest) [] [] with
      | none => none
      | some (.error e) => some (.error e)
      | some (.ok (output, stack)) => some (drain stack output) := rfl
  rw [hdef, hs, hstep]

/-- C12 on `(1+2)*3 x4`: the space is the first byte outside the alphabet. -/
theorem invalidCharacter_first_witness :
    infixToPostfix "(1+2)*3 x4".toList = some (.error (.invalidCharacter ' ')) ∧
    runeString ' ' = [' '] :=
  ⟨(invalidCharacter_first "(1+2)*3".toList "x4".toList ' ' (by decide)
    (prefix_balanced_of_not_unbalanced _ (by decide)) (by decide)).1,
   (invalidCharacter_first "(1+2)*3".toList "x4".toList ' ' (by decide)
    (prefix_balanced_of_not_unbalanced _ (by decide)) (by decide)).2 (by decide)⟩

/-! ## The operator stack -/

theorem popToParen_stackOk (stack : List Char) (hst : StackOk stack) :
    ∀ output : List Token, StackOk (popToParen stack output).2.1 := by
  induction stack with
  | nil => intro output; exact fun c hc => absurd hc (List.not_mem_nil c)
  | cons top stack ih =>
    intro output
    have hst' : StackOk stack := fun c hc => hst c (List.mem_cons_of_mem _ hc)
    unfold popToParen
    split
    · exact hst'
    · exact ih hst' _

theorem StackOk.cons {ch : Char} {stack : List Char} (hch : IsOperator ch ∨ ch = '(')
    (hst : StackOk stack) : StackOk (ch :: stack) := by
  intro c hc
  rcases List.mem_cons.mp hc with rfl | hc
  · exact hch
  · exact hst c hc

theorem scanStacks_stackOk (fuel : Nat) :
    ∀ (input : List Char) (output : List Token) (stack : List Char), StackOk stack →
      ∀ s ∈ scanStacks fuel input output stack, StackOk s := by
  induction fuel with
  | zero =>
    intro input output stack hst s hs
    cases input <;> simp [scanStacks] at hs <;> exact hs ▸ hst
  | succ fuel ih =>
    intro input output stack hst s hs
    cases input with
    | nil => simp [scanStacks] at hs; exact hs ▸ hst
    | cons ch rest =>
      simp only [scanStacks, List.mem_cons] at hs
      rcases hs with rfl | hs
      · exact hst
      · split at hs
        · exact ih _ _ _ hst s hs
        · split at hs
          · exact ih _ _ _ (StackOk.cons (Or.inr (by assumption)) hst) s hs
          · split at hs
            · have hpop := popToParen_stackOk stack hst output
              split at hs
              · rename_i st' out' heq
                rw [heq] at hpop
                rcases List.mem_cons.mp hs with rfl | hs
                · exact hpop
                · exact ih _ _ _ hpop s hs
              · rename_i st' out' heq
                rw [heq] at hpop
                rw [List.mem_singleton.mp hs]
                exact hpop
            · split at hs
              · rename_i hop
                have hpop := (popOperators_depth ch stack hst output).1
                rcases List.mem_cons.mp hs with rfl | hs
                · exact hpop
                · exact ih _ _ _ (StackOk.cons (Or.inl hop) hpop) s hs
              · exact absurd hs (List.not_mem_nil s)

theorem scanLoop_final_stack (fuel : Nat) :
    ∀ (input : List Char) (output : List Token) (stack : List Char) (o : List Token)
      (s : List Char), scanLoop fuel input output stack = some (.ok (o, s)) →
      s ∈ scanStacks fuel input output stack := by
  induction fuel with
  | zero =>
    intro input output stack o s h
    cases input with
    | nil =>
      simp only [scanLoop, Option.some.injEq, Except.ok.injEq, Prod.mk.injEq] at h
      simp [scanStacks, h.2]
    | cons ch rest => simp [scanLoop] at h
  | succ fuel ih =>
    intro input output stack o s h
    cases input with
    | nil =>
      simp only [scanLoop, Option.some.injEq, Except.ok.injEq, Prod.mk.injEq] at h
      simp [scanStacks, h.2]
    | cons ch rest =>
      simp only [scanLoop] at h
      simp only [scanStacks, List.mem_cons]
      right
      split
      · rw [if_pos (by assumption)] at h
        exact ih _ _ _ _ _ h
      · rw [if_neg (by assumption)] at h
        split
        · rw [if_pos (by assumption)] at h
          exact ih _ _ _ _ _ h
        · rw [if_neg (by assumption)] at h
          split
          · rw [if_pos (by assumption)] at h
            split
            · rename_i st' out' heq
              rw [heq] at h
              exact List.mem_cons_of_mem _ (ih _ _ _ _ _ h)
            · rename_i st' out' heq
              rw [heq] at h
              simp at h
          · rw [if_neg (by assumption)] at h
            split
            · rw [if_pos (by assumption)] at h
              exact List.mem_cons_of_mem _ (ih _ _ _ _ _ h)
            · rw [if_neg (by assumption)] at h
              simp at h

/-- C16: on every input, at every step of `infixToPostfix` the operator stack
holds only `+`, `-`, `*`, `/` and `(`, never a digit, a `.` or a `)`; the
stack the scan hands to the final drain is one of these stacks, so the test
`top == ')'` of the drain never fires. -/
theorem operator_stack_invariant (expr : List Char) :
    (∀ st ∈ scanStacks expr.length expr [] [], ∀ c ∈ st,
      (c = '+' ∨ c = '-' ∨ c = '*' ∨ c = '/' ∨ c = '(') ∧ isDigit c = false ∧ c ≠ ')') ∧
    (∀ (output : List Token) (stack : List Char),
      scanLoop expr.length expr [] [] = some (.ok (output, stack)) →
      stack ∈ scanStacks expr.length expr [] [] ∧ ')' ∉ stack) := by
  have hall : ∀ st ∈ scanStacks expr.length expr [] [], StackOk st :=
    scanStacks_stackOk expr.length expr [] [] (fun c hc => absurd hc (List.not_mem_nil c))
  have hchar : ∀ c : Char, IsOperator c ∨ c = '(' →
      (c = '+' ∨ c = '-' ∨ c = '*' ∨ c = '/' ∨ c = '(') ∧ isDigit c = false ∧ c ≠ ')' := by
    rintro c ((rfl | rfl | rfl | rfl) | rfl) <;> decide
  refine ⟨fun st hst c hc => hchar c (hall st hst c hc), fun output stack h => ?_⟩
  have hmem := scanLoop_final_stack expr.length expr [] [] output stack h
  exact ⟨hmem, fun hc => (hchar _ (hall stack hmem _ hc)).2.2 rfl⟩

/-! ## The content of the output -/

theorem readNumber_full (rest : List Char) :
    ∀ num : Token, ∃ run, rest = run ++ (readNumber num rest).2 ∧
      (∀ c ∈ run, isDigit c = true) ∧ NoDigitHead (readNumber num rest).2 ∧
      (readNumber num rest).1 = num ++ run := by
  induction rest with
  | nil => intro num; exact ⟨[], by simp [readNumber], by simp, trivial, by simp [readNumber]⟩
  | cons c rest ih =>
    intro num
    by_cases hc : isDigit c = true
    · obtain ⟨run, hrun, hd, hnd, h1⟩ := ih (num ++ [c])
      refine ⟨c :: run, ?_, ?_, ?_, ?_⟩
      · simp only [readNumber, hc, Bool.true_or, if_true, List.cons_append]
        exact congrArg (c :: ·) hrun
      · intro x hx
        rcases List.mem_cons.mp hx with rfl | hx
        · exact hc
        · exact hd x hx
      · simpa only [readNumber, hc, Bool.true_or, if_true] using hnd
      · simp only [readNumber, hc, Bool.true_or, if_true, h1, List.append_assoc,
          List.singleton_append]
    · have hdot : (c == '.') = false := by
        cases hcd : (c == '.') with
        | false => rfl
        | true => simp [isDigit, hcd] at hc
      have hc' : isDigit c = false := by simpa using hc
      refine ⟨[], ?_, by simp, ?_, ?_⟩ <;> simp [readNumber, hc', hdot, NoDigitHead]

theorem digitRunsFrom_run (run input : List Char) (h : ∀ c ∈ run, isDigit c = true) :
    ∀ cur : List Char, digitRunsFrom cur (run ++ input) = digitRunsFrom (cur ++ run) input := by
  induction run with
  | nil => intro cur; simp
  | cons c run ih =>
    intro cur
    have hc := h c (List.mem_cons_self _ _)
    show digitRunsFrom cur (c :: (run ++ input)) = _
    rw [digitRunsFrom, if_pos hc, ih (fun x hx => h x (List.mem_cons_of_mem _ hx))]
    simp

theorem digitRunsFrom_flush (cur input : List Char) (hcur : cur ≠ []) (h : NoDigitHead input) :
    digitRunsFrom cur input = cur :: digitRuns input := by
  cases input with
  | nil => simp [digitRunsFrom, digitRuns, hcur]
  | cons c cs =>
    have hc : isDigit c = false := h
    simp [digitRunsFrom, digitRuns, hc, hcur]

theorem digitRuns_literal (ch : Char) (run input : List Char) (hch : isDigit ch = true)
    (hrun : ∀ c ∈ run, isDigit c = true) (h : NoDigitHead input) :
    digitRuns (ch :: (run ++ input)) = (ch :: run) :: digitRuns input := by
  unfold digitRuns
  rw [digitRunsFrom, if_pos hch, digitRunsFrom_run run input hrun]
  exact digitRunsFrom_flush _ _ (by simp) h

theorem digitRuns_other (c : Char) (cs : List Char) (hc : isDigit c = false) :
    digitRuns (c :: cs) = digitRuns cs := by
  simp [digitRuns, digitRunsFrom, hc]

theorem literalTokens_push_operator (output : List Token) (top : Char) (h : IsOperator top) :
    literalTokens (output ++ [runeString top]) = literalTokens output := by
  rw [runeString_operator h]
  rcases h with rfl | rfl | rfl | rfl <;> simp [literalTokens, List.filter_append, isOperatorToken]

theorem literalTokens_push_literal (output : List Token) (s : Token) (hne : s ≠ [])
    (hs : ∀ c ∈ s, isDigit c = true) :
    literalTokens (output ++ [s]) = literalTokens output ++ [s] := by
  have h := (literal_not_operator hne hs).1
  have : isOperatorToken s = false := by
    simp only [isOperatorToken, Bool.or_eq_false_iff, beq_eq_false_iff_ne, ne_eq]
    exact ⟨⟨⟨fun h1 => h (Or.inl h1), fun h1 => h (Or.inr (Or.inl h1))⟩,
      fun h1 => h (Or.inr (Or.inr (Or.inl h1)))⟩, fun h1 => h (Or.inr (Or.inr (Or.inr h1)))⟩
  simp [literalTokens, List.filter_append, this]

theorem count_push_operator (output : List Token) (top op : Char) (h : IsOperator top) :
    (output ++ [runeString top]).count [op] = output.count [op] + (if top = op then 1 else 0) := by
  rw [runeString_operator h, List.count_append, List.count_singleton]
  simp

theorem count_push_literal (output : List Token) (s : Token) (op : Char) (hop : IsOperator op)
    (hne : s ≠ []) (hs : ∀ c ∈ s, isDigit c = true) :
    (output ++ [s]).count [op] = output.count [op] := by
  have h := (literal_not_operator hne hs).1
  have : ¬ s = [op] := by
    rcases hop with rfl | rfl | rfl | rfl
    · exact fun h1 => h (Or.inl h1)
    · exact fun h1 => h (Or.inr (Or.inl h1))
    · exact fun h1 => h (Or.inr (Or.inr (Or.inl h1)))
    · exact fun h1 => h (Or.inr (Or.inr (Or.inr h1)))
  rw [List.count_append, List.count_singleton]
  simp [this]

theorem NoParenToken.push_operator {output : List Token} (h : NoParenToken output) {top : Char}
    (htop : IsOperator top) : NoParenToken (output ++ [runeString top]) := by
  rw [runeString_operator htop]
  rcases htop with rfl | rfl | rfl | rfl <;> simpa [NoParenToken] using h

theorem NoParenToken.push_literal {output : List Token} (h : NoParenToken output) {s : Token}
    (hne : s ≠ []) (hs : ∀ c ∈ s, isDigit c = true) : NoParenToken (output ++ [s]) := by
  have h2 := (literal_not_operator hne hs).2
  simp only [NoParenToken, List.mem_append, List.mem_singleton, not_or]
  exact ⟨⟨h.1, fun h1 => h2.1 h1.symm⟩, ⟨h.2, fun h1 => h2.2 h1.symm⟩⟩

theorem popToParen_content (stack : List Char) (hst : StackOk stack) :
    ∀ output : List Token,
      literalTokens (popToParen stack output).2.2 = literalTokens output ∧
      (∀ op, IsOperator op → (popToParen stack output).2.2.count [op] +
        (popToParen stack output).2.1.count op = output.count [op] + stack.count op) ∧
      (NoParenToken output → NoParenToken (popToParen stack output).2.2) := by
  induction stack with
  | nil => intro output; simp [popToParen]
  | cons top stack ih =>
    intro output
    have hst' : StackOk stack := fun c hc => hst c (List.mem_cons_of_mem _ hc)
    rcases hst top (List.mem_cons_self _ _) with htop | rfl
    · have := ih hst' (output ++ [runeString top])
      simp only [popToParen, if_neg htop.ne_open]
      refine ⟨by rw [this.1, literalTokens_push_operator _ _ htop], fun op hop => ?_,
        fun h => this.2.2 (h.push_operator htop)⟩
      rw [this.2.1 op hop, count_push_operator _ _ _ htop, List.count_cons]
      simp only [beq_iff_eq]
      omega
    · have e : popToParen ('(' :: stack) output = (true, stack, output) := by
        simp [popToParen]
      rw [e]
      refine ⟨rfl, fun op hop => ?_, id⟩
      have hne : ¬ '(' = op := fun h => hop.ne_open h.symm
      simp [List.count_cons, hne]

theorem popOperators_content (ch : Char) (stack : List Char) (hst : StackOk stack) :
    ∀ output : List Token,
      literalTokens (popOperators ch stack output).2 = literalTokens output ∧
      (∀ op, IsOperator op → (popOperators ch stack output).2.count [op] +
        (popOperators ch stack output).1.count op = output.count [op] + stack.count op) ∧
      (NoParenToken output → NoParenToken (popOperators ch stack output).2) := by
  induction stack with
  | nil => intro output; simp [popOperators]
  | cons top stack ih =>
    intro output
    have hst' : StackOk stack := fun c hc => hst c (List.mem_cons_of_mem _ hc)
    unfold popOperators
    split
    · exact ⟨rfl, fun _ _ => rfl, id⟩
    · rename_i hnot
      have htop : IsOperator top := by
        rcases hst top (List.mem_cons_self _ _) with h | h
        · exact h
        · exact absurd (Or.inl h) hnot
      have := ih hst' (output ++ [runeString top])
      refine ⟨by rw [this.1, literalTokens_push_operator _ _ htop], fun op hop => ?_,
        fun h => this.2.2 (h.push_operator htop)⟩
      rw [this.2.1 op hop, count_push_operator _ _ _ htop, List.count_cons]
      simp only [beq_iff_eq]
      omega

theorem drain_content (stack : List Char) (hst : StackOk stack) :
    ∀ output tokens : List Token, drain stack output = .ok tokens →
      literalTokens tokens = literalTokens output ∧
      (∀ op, IsOperator op → tokens.count [op] = output.count [op] + stack.count op) ∧
      (NoParenToken output → NoParenToken tokens) := by
  induction stack with
  | nil =>
    intro output tokens h
    simp only [drain, Except.ok.injEq] at h
    subst h
    simp
  | cons top stack ih =>
    intro output tokens h
    have hst' : StackOk stack := fun c hc => hst c (List.mem_cons_of_mem _ hc)
    unfold drain at h
    split at h
    · cases h
    · rename_i hnot
      have htop : IsOperator top := by
        rcases hst top (List.mem_cons_self _ _) with h1 | h1
        · exact h1
        · exact absurd (Or.inl h1) hnot
      have := ih hst' _ _ h
      refine ⟨by rw [this.1, literalTokens_push_operator _ _ htop], fun op hop => ?_,
        fun h => this.2.2 (h.push_operator htop)⟩
      rw [this.2.1 op hop, count_push_operator _ _ _ htop, List.count_cons]
      simp only [beq_iff_eq]
      omega

theorem count_operator_run (op : Char) (hop : IsOperator op) (run input : List Char)
    (h : ∀ c ∈ run, isDigit c = true) : (run ++ input).count op = input.count op := by
  induction run with
  | nil => rfl
  | cons c run ih =>
    have hc := h c (List.mem_cons_self _ _)
    have hne : ¬ c = op := by
      rintro rfl
      rw [hop.not_digit] at hc
      cases hc
    simp [List.count_cons, hne, ih (fun x hx => h x (List.mem_cons_of_mem _ hx))]

theorem scan_content (n : Nat) :
    ∀ input : List Char, input.length = n →
    ∀ (output : List Token) (stack : List Char), StackOk stack →
    ∀ (o : List Token) (s : List Char), scan input output stack = some (.ok (o, s)) →
      StackOk s ∧ literalTokens o = literalTokens output ++ digitRuns input ∧
      (∀ op, IsOperator op →
        o.count [op] + s.count op = output.count [op] + stack.count op + input.count op) ∧
      (NoParenToken output → NoParenToken o) := by
  induction n using Nat.strong_induction_on with
  | _ n ih =>
    intro input hlen output stack hst o s h
    cases input with
    | nil =>
      rw [scan_nil] at h
      simp only [Option.some.injEq, Except.ok.injEq, Prod.mk.injEq] at h
      obtain ⟨rfl, rfl⟩ := h
      exact ⟨hst, by simp [digitRuns, digitRunsFrom], fun _ _ => rfl, id⟩
    | cons ch rest =>
      have hlt : rest.length < n := by simp at hlen; omega
      rw [scan_cons] at h
      split at h
      · -- a literal
        rename_i hd
        obtain ⟨run, hrun, hdig, hnd, h1⟩ := readNumber_full rest [ch]
        have hlen2 : (readNumber [ch] rest).2.length < n :=
          Nat.lt_of_le_of_lt (readNumber_length rest [ch]) hlt
        have hne : [ch] ++ run ≠ [] := by simp
        have hlit : ∀ c ∈ [ch] ++ run, isDigit c = true := by
          intro c hc
          rcases List.mem_append.mp hc with hc | hc
          · rw [List.mem_singleton.mp hc]; exact hd
          · exact hdig c hc
        obtain ⟨hs, hl, hc, hp⟩ := ih _ hlen2 _ rfl _ stack hst o s h
        rw [h1] at hl hc hp
        refine ⟨hs, ?_, fun op hop => ?_, fun hno => hp (hno.push_literal hne hlit)⟩
        · rw [hl, literalTokens_push_literal _ _ hne hlit, List.append_assoc]
          congr 1
          conv_rhs => rw [hrun]
          exact (digitRuns_literal ch run _ hd hdig hnd).symm
        · rw [hc op hop, count_push_literal _ _ op hop hne hlit]
          have hch : ¬ ch = op := by
            rintro rfl
            rw [hop.not_digit] at hd
            cases hd
          have : (ch :: rest).count op = (readNumber [ch] rest).2.count op := by
            rw [List.count_cons, if_neg (by simpa using hch), Nat.add_zero]
            conv_lhs => rw [hrun]
            exact count_operator_run op hop run _ hdig
          rw [this]
      · split at h
        · -- an opening parenthesis
          rename_i hnd ho
          subst ho
          obtain ⟨hs, hl, hc, hp⟩ := ih _ hlt _ rfl _ _ (StackOk.cons (Or.inr rfl) hst) o s h
          refine ⟨hs, ?_, fun op hop => ?_, hp⟩
          · rw [hl, digitRuns_other _ _ (by decide)]
          · have hne : ¬ '(' = op := fun h => hop.ne_open h.symm
            rw [hc op hop]
            simp [List.count_cons, hne]
        · split at h
          · -- a closing parenthesis
            rename_i hnd hno hcl
            subst hcl
            have hpopok := popToParen_stackOk stack hst output
            have hpop := popToParen_content stack hst output
            split at h
            · rename_i st' out' heq
              rw [heq] at hpop hpopok
              obtain ⟨hs, hl, hc, hp⟩ := ih _ hlt _ rfl _ _ hpopok o s h
              refine ⟨hs, ?_, fun op hop => ?_, fun hno => hp (hpop.2.2 hno)⟩
              · rw [hl, hpop.1, digitRuns_other _ _ (by decide)]
              · have hne : ¬ ')' = op := fun h => hop.ne_close h.symm
                rw [hc op hop, hpop.2.1 op hop]
                simp [List.count_cons, hne]
            · cases h
          · split at h
            · -- an operator
              rename_i hnd hno hnc hop'
              have hch : IsOperator ch := hop'
              have hpopok := (popOperators_depth ch stack hst output).1
              have hpop := popOperators_content ch stack hst output
              obtain ⟨hs, hl, hc, hp⟩ := ih _ hlt _ rfl _ _ (StackOk.cons (Or.inl hch) hpopok)
                o s h
              refine ⟨hs, ?_, fun op hop => ?_, fun hno => hp (hpop.2.2 hno)⟩
              · rw [hl, hpop.1, digitRuns_other _ _ hch.not_digit]
              · have := hpop.2.1 op hop
                rw [hc op hop]
                simp only [List.count_cons, beq_iff_eq]
                omega
            · cases h

/-- C18: for every input on which `infixToPostfix` succeeds, the
numeric-literal tokens of the output are the maximal runs of digits and `.`
of the input, in their order; the output holds each operator token as many
times as the input holds that operator byte; and no output token is `(` or
`)`. -/
theorem infixToPostfix_content (expr : List Char) (tokens : List Token)
    (h : infixToPostfix expr = some (.ok tokens)) :
    literalTokens tokens = digitRuns expr ∧
    (∀ op, op = '+' ∨ op = '-' ∨ op = '*' ∨ op = '/' → tokens.count [op] = expr.count op) ∧
    ['('] ∉ tokens ∧ [')'] ∉ tokens := by
  have hdef : infixToPostfix expr =
      match scan expr [] [] with
      | none => none
      | some (.error e) => some (.error e)
      | some (.ok (output, stack)) => some (drain stack output) := rfl
  rw [hdef] at h
  cases hs : scan expr [] [] with
  | none => rw [hs] at h; cases h
  | some r =>
    cases r with
    | error e => rw [hs] at h; cases h
    | ok p =>
      obtain ⟨o, s⟩ := p
      rw [hs] at h
      simp only [Option.some.injEq] at h
      obtain ⟨hso, hl, hc, hp⟩ := scan_content expr.length expr rfl [] []
        (fun c hc => absurd hc (List.not_mem_nil c)) o s hs
      obtain ⟨dl, dc, dp⟩ := drain_content s hso o tokens h
      refine ⟨?_, fun op hop => ?_, dp (hp (by simp [NoParenToken]))⟩
      · rw [dl, hl]; simp [literalTokens]
      · have := hc op hop
        rw [dc op hop, this]
        simp

/-- C18 on `(12+3.4)*5/6-7`. -/
theorem infixToPostfix_content_witness :
    infixToPostfix "(12+3.4)*5/6-7".toList =
      some (.ok ["12".toList, "3.4".toList, ['+'], ['5'], ['*'], ['6'], ['/'], ['7'], ['-']]) ∧
    digitRuns "(12+3.4)*5/6-7".toList = ["12".toList, "3.4".toList, ['5'], ['6'], ['7']] ∧
    literalTokens ["12".toList, "3.4".toList, ['+'], ['5'], ['*'], ['6'], ['/'], ['7'], ['-']] =
      digitRuns "(12+3.4)*5/6-7".toList :=
  ⟨by decide, by decide,
    (infixToPostfix_content "(12+3.4)*5/6-7".toList
      ["12".toList, "3.4".toList, ['+'], ['5'], ['*'], ['6'], ['/'], ['7'], ['-']]
      (by decide)).1⟩

/-! ## The string stack and the stack of numbers -/

theorem evalTokens_simulates (lib : Float64Lib) (tokens : List Token) :
    (∀ t ∈ tokens, isOperatorToken t = false → (lib.parseFloat t).isSome = true) →
    ∀ (strs : List Token) (nums : List lib.F),
      List.Forall₂ (fun s v => lib.parseFloat s = some v) strs nums →
      (∀ x ∈ computedNumbers lib tokens nums, lib.parseFloat (lib.sprint x) = some x) →
      (∃ strs' nums', evalTokens lib tokens strs = .ok strs' ∧
        evalNative lib tokens nums = .ok nums' ∧
        List.Forall₂ (fun s v => lib.parseFloat s = some v) strs' nums') ∨
      (∃ e, evalTokens lib tokens strs = .error e ∧ evalNative lib tokens nums = .error e) := by
  induction tokens with
  | nil =>
    intro _ strs nums hrel _
    exact Or.inl ⟨strs, nums, rfl, rfl, hrel⟩
  | cons token rest ih =>
    intro hlit strs nums hrel hrt
    have hlit' : ∀ t ∈ rest, isOperatorToken t = false → (lib.parseFloat t).isSome = true :=
      fun t ht => hlit t (List.mem_cons_of_mem _ ht)
    rw [evalTokens.eq_def, evalNative.eq_def]
    rw [computedNumbers.eq_def] at hrt
    simp only at hrt ⊢
    by_cases htok : token = ['+'] ∨ token = ['-'] ∨ token = ['*'] ∨ token = ['/']
    · simp only [if_pos htok] at hrt ⊢
      cases hrel with
      | nil => exact Or.inr ⟨_, rfl, rfl⟩
      | @cons bStr b strs1 nums1 hb hrel1 =>
        cases hrel1 with
        | nil => exact Or.inr ⟨_, rfl, rfl⟩
        | @cons aStr a strs2 nums2 ha hrel2 =>
          simp only [ha, hb] at hrt ⊢
          cases hres : applyOperator lib token a b with
          | error e => exact Or.inr ⟨e, rfl, rfl⟩
          | ok res =>
            rw [hres] at hrt
            simp only at hrt ⊢
            have hres' : lib.parseFloat (lib.sprint res) = some res :=
              hrt res (List.mem_cons_self _ _)
            exact ih hlit' _ _ (List.Forall₂.cons hres' hrel2)
              (fun x hx => hrt x (List.mem_cons_of_mem _ hx))
    · simp only [if_neg htok] at hrt ⊢
      have hnot : isOperatorToken token = false := by
        simp only [isOperatorToken, Bool.or_eq_false_iff, beq_eq_false_iff_ne, ne_eq]
        exact ⟨⟨⟨fun h => htok (Or.inl h), fun h => htok (Or.inr (Or.inl h))⟩,
          fun h => htok (Or.inr (Or.inr (Or.inl h)))⟩, fun h => htok (Or.inr (Or.inr (Or.inr h)))⟩
      obtain ⟨v, hv⟩ := Option.isSome_iff_exists.mp (hlit token (List.mem_cons_self _ _) hnot)
      rw [hv] at hrt ⊢
      exact ih hlit' _ _ (List.Forall₂.cons hv hrel) hrt

/-- C17, as stated, fails: on the sequence `. +`, where no number is computed,
the string stack gives `invalid expression` and the stack of numbers, which
parses `.` when it pushes it, gives `invalid number`. -/
theorem native_stack_counterexample :
    evaluatePostfix exactLib [['.'], ['+']] = .error .invalidExpression ∧
    evaluatePostfixNative exactLib [['.'], ['+']] = .error .invalidNumber ∧
    computedNumbers exactLib [['.'], ['+']] [] = [] := by
  decide

/-- C17, amended: for every postfix token sequence whose literal tokens all
parse as numbers, the evaluator with the string stack and the evaluator with a
stack of numbers parsed when pushed return the same value or the same error,
assuming `parse(format(x)) = x` for every computed number `x`. -/
theorem native_stack_refines (lib : Float64Lib) (tokens : List Token)
    (hlit : ∀ t ∈ tokens, isOperatorToken t = false → (lib.parseFloat t).isSome = true)
    (hrt : ∀ x ∈ computedNumbers lib tokens [], lib.parseFloat (lib.sprint x) = some x) :
    evaluatePostfix lib tokens = evaluatePostfixNative lib tokens := by
  unfold evaluatePostfix evaluatePostfixNative
  rcases evalTokens_simulates lib tokens hlit [] [] List.Forall₂.nil hrt with
    ⟨strs, nums, h1, h2, hrel⟩ | ⟨e, h1, h2⟩
  · rw [h1, h2]
    cases hrel with
    | nil => rfl
    | @cons s v strs1 nums1 hv hrel1 =>
      cases hrel1 with
      | nil => simp only [hv]
      | cons _ _ => rfl
  · rw [h1, h2]

/-- C17 amended on the sequences `2 3 + 4 *` and `1 0 /` with exact
arithmetic. -/
theorem native_stack_refines_witness :
    evaluatePostfix exactLib [['2'], ['3'], ['+'], ['4'], ['*']] =
      evaluatePostfixNative exactLib [['2'], ['3'], ['+'], ['4'], ['*']] ∧
    evaluatePostfixNative exactLib [['2'], ['3'], ['+'], ['4'], ['*']] = .ok (Frac.ofInt 20) ∧
    evaluatePostfix exactLib [['1'], ['0'], ['/']] =
      evaluatePostfixNative exactLib [['1'], ['0'], ['/']] ∧
    evaluatePostfixNative exactLib [['1'], ['0'], ['/']] = .error .divisionByZero :=
  ⟨native_stack_refines exactLib [['2'], ['3'], ['+'], ['4'], ['*']] (by decide) (by decide),
   by decide,
   native_stack_refines exactLib [['1'], ['0'], ['/']] (by decide) (by decide),
   by decide⟩

/-! ## Spaces inside numbers and leading minus signs -/

theorem removeSpaces_eq_self (expr : List Char) (h : ∀ c ∈ expr, c ≠ ' ') :
    removeSpaces expr = expr := by
  unfold removeSpaces
  rw [List.filter_eq_self]
  intro c hc
  simpa using h c hc

theorem removeSpaces_idem (expr : List Char) :
    removeSpaces (removeSpaces expr) = removeSpaces expr := by
  apply removeSpaces_eq_self
  intro c hc
  unfold removeSpaces at hc
  simpa using (List.mem_filter.mp hc).2

theorem evaluate_removeSpaces (lib : Float64Lib) (expr : List Char) :
    evaluate lib expr = evaluate lib (removeSpaces expr) := by
  unfold evaluate
  simp only [removeSpaces_idem]

theorem evaluate_of_long (lib : Float64Lib) (expr : List Char)
    (h : 1000 < (removeSpaces expr).length) : evaluate lib expr = some (.error .tooLong) := by
  simp [evaluate, h]

theorem isDigit_ne_space {c : Char} (h : isDigit c = true) : c ≠ ' ' := by
  rintro rfl; exact absurd h (by decide)

theorem infixToPostfix_of_scan (expr : List Char) (o tokens : List Token) (s : List Char)
    (h : scan expr [] [] = some (.ok (o, s))) (hd : drain s o = .ok tokens) :
    infixToPostfix expr = some (.ok tokens) := by
  have hdef : infixToPostfix expr =
      match scan expr [] [] with
      | none => none
      | some (.error e) => some (.error e)
      | some (.ok (output, stack)) => some (drain stack output) := rfl
  rw [hdef, h]
  simp only
  rw [hd]

theorem infixToPostfix_literal (s : List Char) (hne : s ≠ []) (hs : ∀ c ∈ s, isDigit c = true) :
    infixToPostfix s = some (.ok [s]) := by
  have h := scan_literal s [] hne hs trivial [] []
  rw [List.append_nil, scan_nil] at h
  exact infixToPostfix_of_scan s _ _ _ h rfl

theorem removeSpaces_joined (m n : List Char) (hm : ∀ c ∈ m, isDigit c = true)
    (hn : ∀ c ∈ n, isDigit c = true) : removeSpaces (m ++ ' ' :: n) = m ++ n := by
  unfold removeSpaces
  rw [List.filter_append, List.filter_cons]
  have h1 : List.filter (fun c => c != ' ') m = m :=
    List.filter_eq_self.mpr (fun c hc => by simpa using isDigit_ne_space (hm c hc))
  have h2 : List.filter (fun c => c != ' ') n = n :=
    List.filter_eq_self.mpr (fun c hc => by simpa using isDigit_ne_space (hn c hc))
  rw [h1, h2]
  simp

set_option maxRecDepth 100000 in
/-- C19, as stated, fails: for `m` a thousand zeros and `n` the digit `1`, the
literal `m ++ n` has the value 1 (exact arithmetic) but `evaluate` on
`m ++ " " ++ n` fails with `expression too long`: 1001 bytes are left once
the space is removed. -/
theorem joined_digits_counterexample :
    exactLib.parseFloat (List.replicate 1000 '0' ++ ['1']) = some (Frac.ofInt 1) ∧
    evaluate exactLib (List.replicate 1000 '0' ++ ' ' :: ['1']) = some (.error .tooLong) := by
  refine ⟨by decide, ?_⟩
  apply evaluate_of_long
  rw [removeSpaces_joined _ _ (fun c hc => by rw [List.eq_of_mem_replicate hc]; decide)
    (by decide)]
  simp

/-- C19, amended: `evaluate(s)` is `evaluate` of `s` without its spaces, for
every `s`; for all strings `m` and `n` of digits, `evaluate(m ++ " " ++ n)`
is `evaluate(m ++ n)`, and when `m ++ n` is not empty and has at most 1000
bytes it returns a value if and only if the single literal `m ++ n` parses
as a number, the value being that number; in a library that computes
12+3=15, `evaluate("1 2+3")` is 15. -/
theorem spaces_join_digits (lib : Float64Lib) (h15 : lib.Computes lib.add "12" "3" "15") :
    (∀ s, evaluate lib s = evaluate lib (removeSpaces s)) ∧
    (∀ m n : List Char, (∀ c ∈ m, isDigit c = true) → (∀ c ∈ n, isDigit c = true) →
      evaluate lib (m ++ ' ' :: n) = evaluate lib (m ++ n) ∧
      (m ++ n ≠ [] → (m ++ n).length ≤ 1000 → ∀ v,
        (evaluate lib (m ++ ' ' :: n) = some (.ok v) ↔ lib.parseFloat (m ++ n) = some v))) ∧
    (∃ v, lib.parseFloat "15".toList = some v ∧
      evaluate lib "1 2+3".toList = some (.ok v)) := by
  refine ⟨evaluate_removeSpaces lib, fun m n hm hn => ?_, ?_⟩
  · have hmn : ∀ c ∈ m ++ n, isDigit c = true := fun c hc =>
      (List.mem_append.mp hc).elim (hm c) (hn c)
    have hjoin : evaluate lib (m ++ ' ' :: n) = evaluate lib (m ++ n) := by
      rw [evaluate_removeSpaces lib (m ++ ' ' :: n), removeSpaces_joined m n hm hn]
    refine ⟨hjoin, fun hne hlen v => ?_⟩
    have hstack : evalTokens lib [m ++ n] [] = .ok [m ++ n] := by
      rw [evalTokens_literal lib hne hmn, evalTokens]
    rw [hjoin, evaluate_of_tokens lib (m ++ n) [m ++ n]
      (removeSpaces_eq_self _ (fun c hc => isDigit_ne_space (hmn c hc))) hlen
      (infixToPostfix_literal _ hne hmn),
      evaluatePostfix_of_single lib [m ++ n] (m ++ n) hstack]
    cases hp : lib.parseFloat (m ++ n) <;> simp
  · obtain ⟨v, hv⟩ := h15.result
    refine ⟨v, hv, ?_⟩
    rw [evaluate_removeSpaces, show removeSpaces "1 2+3".toList = "12+3".toList from by decide,
      evaluate_of_tokens lib "12+3".toList ["12".toList, "3".toList, ['+']]
        (by decide) (by decide) (by decide)]
    refine congrArg some (evaluatePostfix_of_stack lib _ "15".toList v ?_ hv)
    rw [evalTokens_literal lib (by decide) (by decide),
      evalTokens_literal lib (by decide) (by decide),
      evalTokens_computes lib lib.add ['+'] "12" "3" "15" h15 (fun _ _ _ => rfl) (Or.inl rfl),
      evalTokens]

/-- C19 amended with exact arithmetic: `4 2` is read as the literal `42`, and
`1 2+3` is 15. -/
theorem spaces_join_digits_witness :
    evaluate exactLib "4 2".toList = some (.ok (Frac.ofInt 42)) ∧
    evaluate exactLib "1 2+3".toList = some (.ok (Frac.ofInt 15)) :=
  have h := spaces_join_digits exactLib ⟨Frac.ofInt 12, Frac.ofInt 3, Frac.ofInt 15, by decide⟩
  ⟨((h.2.1 ['4'] ['2'] (by decide) (by decide)).2 (by decide) (by decide)
    (Frac.ofInt 42)).mpr (by decide), by
    obtain ⟨v, hv, he⟩ := h.2.2
    obtain rfl : Frac.ofInt 15 = v := Option.some.inj ((by decide : _ = _).symm.trans hv)
    exact he⟩

theorem infixToPostfix_minus (n : List Char) (hn : IsLiteral n) :
    infixToPostfix ('-' :: n) = some (.ok [n, ['-']]) := by
  have e1 : scan ('-' :: n) [] [] = scan n [] ['-'] :=
    scan_operator '-' (Or.inr (Or.inl rfl)) n [] [] [] (by simp) trivial
  have e2 : scan n [] ['-'] = scan [] [n] ['-'] := by
    have := scan_literal n [] hn.1 hn.2 trivial [] ['-']
    rwa [List.append_nil] at this
  exact infixToPostfix_of_scan _ [n] _ ['-'] (by rw [e1, e2, scan_nil]) rfl

theorem infixToPostfix_paren_minus (n : List Char) (hn : IsLiteral n) :
    infixToPostfix ('(' :: '-' :: (n ++ [')'])) = some (.ok [n, ['-']]) := by
  have e1 : scan ('(' :: '-' :: (n ++ [')'])) [] [] = scan ('-' :: (n ++ [')'])) [] ['('] :=
    scan_open _ _ _
  have e2 : scan ('-' :: (n ++ [')'])) [] ['('] = scan (n ++ [')']) [] ['-', '('] :=
    scan_operator '-' (Or.inr (Or.inl rfl)) _ [] [] ['('] (by simp) (Or.inl rfl)
  have e3 : scan (n ++ [')']) [] ['-', '('] = scan [')'] [n] ['-', '('] :=
    scan_literal n [')'] hn.1 hn.2 (show isDigit ')' = false from by decide) [] ['-', '(']
  have e4 : scan [')'] [n] ['-', '('] = scan [] [n, ['-']] [] :=
    scan_close [] [n] ['-'] [] (by simp [IsOperator])
  exact infixToPostfix_of_scan _ [n, ['-']] _ [] (by rw [e1, e2, e3, e4, scan_nil]) rfl

theorem infixToPostfix_times_minus (m n : List Char) (hm : IsLiteral m) (hn : IsLiteral n) :
    infixToPostfix (m ++ '*' :: '-' :: n) = some (.ok [m, ['*'], n, ['-']]) := by
  have e1 : scan (m ++ '*' :: '-' :: n) [] [] = scan ('*' :: '-' :: n) [m] [] :=
    scan_literal m ('*' :: '-' :: n) hm.1 hm.2 (show isDigit '*' = false from by decide) [] []
  have e2 : scan ('*' :: '-' :: n) [m] [] = scan ('-' :: n) [m] ['*'] :=
    scan_operator '*' (Or.inr (Or.inr (Or.inl rfl))) _ [m] [] [] (by simp) trivial
  have e3 : scan ('-' :: n) [m] ['*'] = scan n [m, ['*']] ['-'] :=
    scan_operator '-' (Or.inr (Or.inl rfl)) _ [m] ['*'] []
      (by simp [IsOperator, precedence]) trivial
  have e4 : scan n [m, ['*']] ['-'] = scan [] [m, ['*'], n] ['-'] := by
    have := scan_literal n [] hn.1 hn.2 trivial [m, ['*']] ['-']
    rwa [List.append_nil] at this
  exact infixToPostfix_of_scan _ [m, ['*'], n] _ ['-'] (by rw [e1, e2, e3, e4, scan_nil]) rfl

theorem evaluatePostfix_lone_operator (lib : Float64Lib) (n token : Token) (rest : List Token)
    (hn : IsLiteral n) (htok : token = ['+'] ∨ token = ['-'] ∨ token = ['*'] ∨ token = ['/']) :
    evaluatePostfix lib (n :: token :: rest) = .error .invalidExpression := by
  apply evaluatePostfix_of_error
  rw [evalTokens_literal lib hn.1 hn.2, evalTokens.eq_def]
  simp only [if_pos htok]

theorem evaluate_of_parsed (lib : Float64Lib) (expr : List Char) (tokens : List Token)
    (hsp : ∀ c ∈ expr, c ≠ ' ') (htok : infixToPostfix expr = some (.ok tokens)) :
    evaluate lib expr = some (.error .tooLong) ∨
    evaluate lib expr = some (evaluatePostfix lib tokens) := by
  by_cases hlen : expr.length ≤ 1000
  · exact Or.inr (evaluate_of_tokens lib expr tokens (removeSpaces_eq_self expr hsp) hlen htok)
  · refine Or.inl (evaluate_of_long lib expr ?_)
    rw [removeSpaces_eq_self expr hsp]
    omega

/-- C20, as stated, fails: for the literal `n` of a thousand digits `1`,
`evaluate("-" ++ n)` fails with `expression too long`, not with `invalid
expression`. -/
theorem leading_minus_counterexample :
    IsLiteral (List.replicate 1000 '1') ∧
    evaluate exactLib ('-' :: List.replicate 1000 '1') = some (.error .tooLong) ∧
    evaluate exactLib ('-' :: List.replicate 1000 '1') ≠ some (.error .invalidExpression) := by
  have hlit : IsLiteral (List.replicate 1000 '1') :=
    ⟨fun h => by
        have := congrArg List.length h
        rw [List.length_replicate] at this
        exact absurd this (by decide),
      fun c hc => by rw [List.eq_of_mem_replicate hc]; decide⟩
  have h : evaluate exactLib ('-' :: List.replicate 1000 '1') = some (.error .tooLong) := by
    apply evaluate_of_long
    rw [removeSpaces_eq_self]
    · rw [List.length_cons, List.length_replicate]
      decide
    · intro c hc
      rcases List.mem_cons.mp hc with rfl | hc
      · decide
      · rw [List.eq_of_mem_replicate hc]; decide
  refine ⟨hlit, h, ?_⟩
  rw [h]
  decide

/-- C20, amended: a leading or operator-adjacent minus sign is never treated
as unary negation: for all numeric literals `m` and `n`, `evaluate("-" ++ n)`,
`evaluate("(-" ++ n ++ ")")` and `evaluate(m ++ "*-" ++ n)` fail with `invalid
expression` when the expression has at most 1000 bytes, and never return a
number whatever its length. -/
theorem leading_minus_fails (lib : Float64Lib) (m n : List Char)
    (hm : IsLiteral m) (hn : IsLiteral n) :
    (n.length + 1 ≤ 1000 → evaluate lib ('-' :: n) = some (.error .invalidExpression)) ∧
    (n.length + 3 ≤ 1000 →
      evaluate lib ('(' :: '-' :: (n ++ [')'])) = some (.error .invalidExpression)) ∧
    (m.length + n.length + 2 ≤ 1000 →
      evaluate lib (m ++ '*' :: '-' :: n) = some (.error .invalidExpression)) ∧
    (∀ v, evaluate lib ('-' :: n) ≠ some (.ok v) ∧
      evaluate lib ('(' :: '-' :: (n ++ [')'])) ≠ some (.ok v) ∧
      evaluate lib (m ++ '*' :: '-' :: n) ≠ some (.ok v)) := by
  have hsn : ∀ c ∈ n, c ≠ ' ' := fun c hc => isDigit_ne_space (hn.2 c hc)
  have hsm : ∀ c ∈ m, c ≠ ' ' := fun c hc => isDigit_ne_space (hm.2 c hc)
  have hs1 : ∀ c ∈ '-' :: n, c ≠ ' ' := by
    intro c hc
    rcases List.mem_cons.mp hc with rfl | hc
    · decide
    · exact hsn c hc
  have hs2 : ∀ c ∈ '(' :: '-' :: (n ++ [')']), c ≠ ' ' := by
    intro c hc
    simp only [List.mem_cons, List.mem_append, List.mem_singleton, List.not_mem_nil,
      or_false] at hc
    rcases hc with rfl | rfl | hc | rfl
    · decide
    · decide
    · exact hsn c hc
    · decide
  have hs3 : ∀ c ∈ m ++ '*' :: '-' :: n, c ≠ ' ' := by
    intro c hc
    simp only [List.mem_cons, List.mem_append] at hc
    rcases hc with hc | rfl | rfl | hc
    · exact hsm c hc
    · decide
    · decide
    · exact hsn c hc
  have hp1 := infixToPostfix_minus n hn
  have hp2 := infixToPostfix_paren_minus n hn
  have hp3 := infixToPostfix_times_minus m n hm hn
  have he1 := evaluatePostfix_lone_operator lib n ['-'] [] hn (Or.inr (Or.inl rfl))
  have he3 := evaluatePostfix_lone_operator lib m ['*'] [n, ['-']] hm
    (Or.inr (Or.inr (Or.inl rfl)))
  refine ⟨fun hlen => ?_, fun hlen => ?_, fun hlen => ?_, fun v => ⟨?_, ?_, ?_⟩⟩
  · rw [evaluate_of_tokens lib _ _ (removeSpaces_eq_self _ hs1) (by simpa using hlen) hp1, he1]
  · rw [evaluate_of_tokens lib _ _ (removeSpaces_eq_self _ hs2)
      (by simp only [List.length_cons, List.length_append, List.length_nil]; omega) hp2, he1]
  · rw [evaluate_of_tokens lib _ _ (removeSpaces_eq_self _ hs3)
      (by simp only [List.length_cons, List.length_append]; omega) hp3, he3]
  · rcases evaluate_of_parsed lib _ _ hs1 hp1 with h | h <;> rw [h] <;> simp [he1]
  · rcases evaluate_of_parsed lib _ _ hs2 hp2 with h | h <;> rw [h] <;> simp [he1]
  · rcases evaluate_of_parsed lib _ _ hs3 hp3 with h | h <;> rw [h] <;> simp [he3]

/-- C20 amended on `-5`, `(-5)` and `2*-5` with exact arithmetic. -/
theorem leading_minus_fails_witness :
    evaluate exactLib "-5".toList = some (.error .invalidExpression) ∧
    evaluate exactLib "(-5)".toList = some (.error .invalidExpression) ∧
    evaluate exactLib "2*-5".toList = some (.error .invalidExpression) :=
  have h := leading_minus_fails exactLib ['2'] ['5'] (by simp [IsLiteral]; decide)
    (by simp [IsLiteral]; decide)
  ⟨h.1 (by decide), h.2.1 (by decide), h.2.2.1 (by decide)⟩

/-! ## The index-level code computes the same results and never panics -/

theorem index_top {α : Type} (a : α) (st : List α) :
    index (a :: st).reverse (((a :: st).reverse.length : Int) - 1) = some a := by
  have h : (((a :: st).reverse.length : Int) - 1) = (st.length : Int) := by
    simp
  rw [h]
  unfold index
  simp

theorem sliceTo_top {α : Type} (a : α) (st : List α) :
    sliceTo (a :: st).reverse (((a :: st).reverse.length : Int) - 1) = some st.reverse := by
  have h : (((a :: st).reverse.length : Int) - 1) = (st.length : Int) := by
    simp
  rw [h]
  unfold sliceTo
  simp

theorem index_second {α : Type} (b a : α) (st : List α) :
    index (b :: a :: st).reverse (((b :: a :: st).reverse.length : Int) - 2) = some a := by
  have h : (((b :: a :: st).reverse.length : Int) - 2) = (st.length : Int) := by
    simp only [List.length_reverse, List.length_cons]
    push_cast
    omega
  rw [h]
  unfold index
  have : (b :: a :: st).reverse = st.reverse ++ [a, b] := by simp
  rw [this, if_pos (Int.natCast_nonneg _), Int.toNat_ofNat,
    List.getElem?_append_right (by simp)]
  simp

theorem sliceTo_second {α : Type} (b a : α) (st : List α) :
    sliceTo (b :: a :: st).reverse (((b :: a :: st).reverse.length : Int) - 2) =
      some st.reverse := by
  have h : (((b :: a :: st).reverse.length : Int) - 2) = (st.length : Int) := by
    simp only [List.length_reverse, List.length_cons]
    push_cast
    omega
  rw [h]
  unfold sliceTo
  simp
theorem drop_cons_facts {expr : List Char} {i : Nat} {ch : Char} {rest : List Char}
    (h : expr.drop i = ch :: rest) :
    i < expr.length ∧ expr[i]? = some ch ∧ expr.drop (i + 1) = rest := by
  have hlt : i < expr.length := by
    by_contra hge
    rw [List.drop_eq_nil_of_le (Nat.le_of_not_lt hge)] at h
    cases h
  refine ⟨hlt, ?_, ?_⟩
  · have := List.getElem?_drop expr i 0
    rw [h] at this
    simpa using this.symm
  · have : expr.drop (i + 1) = (expr.drop i).drop 1 := by
      rw [List.drop_drop]
    rw [this, h]
    rfl

theorem readNumberChecked_eq (expr : List Char) (rest : List Char) :
    ∀ (i : Nat) (num : Token) (fuel : Nat), expr.drop (i + 1) = rest → rest.length < fuel →
      ∃ i', readNumberChecked expr fuel i num = .ret (i', (readNumber num rest).1) ∧
        expr.drop (i' + 1) = (readNumber num rest).2 ∧ i ≤ i' := by
  induction rest with
  | nil =>
    intro i num fuel hdrop hfuel
    obtain ⟨fuel, rfl⟩ : ∃ f, fuel = f + 1 := ⟨fuel - 1, by omega⟩
    have hge : ¬ i + 1 < expr.length := by
      intro hlt
      have := List.drop_eq_nil_iff.mp hdrop
      omega
    exact ⟨i, by simp [readNumberChecked, hge, readNumber], by simpa [readNumber] using hdrop,
      Nat.le_refl _⟩
  | cons c cs ih =>
    intro i num fuel hdrop hfuel
    obtain ⟨fuel, rfl⟩ : ∃ f, fuel = f + 1 := ⟨fuel - 1, by omega⟩
    obtain ⟨hlt, hget, hnext⟩ := drop_cons_facts hdrop
    by_cases hc : (isDigit c || c == '.') = true
    · obtain ⟨i', h1, h2, h3⟩ := ih (i + 1) (num ++ [c]) fuel hnext
        (by simp at hfuel; omega)
      refine ⟨i', ?_, ?_, by omega⟩
      · simp only [readNumberChecked, if_pos hlt, hget, hc, if_true, readNumber]
        exact h1
      · simpa only [readNumber, hc, if_true] using h2
    · refine ⟨i, ?_, ?_, Nat.le_refl _⟩
      · simp only [readNumberChecked, if_pos hlt, hget, hc, readNumber]
        rfl
      · simpa only [readNumber, hc] using hdrop

theorem popToParenChecked_eq (stack : List Char) :
    ∀ (output : List Token) (fuel : Nat), stack.length < fuel →
      popToParenChecked fuel stack.reverse output =
        .ret ((popToParen stack output).1, (popToParen stack output).2.1.reverse,
          (popToParen stack output).2.2) := by
  induction stack with
  | nil =>
    intro output fuel hfuel
    obtain ⟨fuel, rfl⟩ : ∃ f, fuel = f + 1 := ⟨fuel - 1, by omega⟩
    simp [popToParenChecked, popToParen]
  | cons top stack ih =>
    intro output fuel hfuel
    obtain ⟨fuel, rfl⟩ : ∃ f, fuel = f + 1 := ⟨fuel - 1, by omega⟩
    have hpos : (top :: stack).reverse.length > 0 := by simp
    rw [popToParenChecked, if_pos hpos, index_top, sliceTo_top]
    simp only [popToParen]
    split
    · rfl
    · exact ih _ fuel (by simp at hfuel; omega)

theorem popOperatorsChecked_eq (ch : Char) (stack : List Char) :
    ∀ (output : List Token) (fuel : Nat), stack.length < fuel →
      popOperatorsChecked ch fuel stack.reverse output =
        .ret ((popOperators ch stack output).1.reverse, (popOperators ch stack output).2) := by
  induction stack with
  | nil =>
    intro output fuel hfuel
    obtain ⟨fuel, rfl⟩ : ∃ f, fuel = f + 1 := ⟨fuel - 1, by omega⟩
    simp [popOperatorsChecked, popOperators]
  | cons top stack ih =>
    intro output fuel hfuel
    obtain ⟨fuel, rfl⟩ : ∃ f, fuel = f + 1 := ⟨fuel - 1, by omega⟩
    have hpos : (top :: stack).reverse.length > 0 := by simp
    rw [popOperatorsChecked, if_pos hpos, index_top]
    simp only [popOperators]
    split
    · rfl
    · rw [sliceTo_top]
      exact ih _ fuel (by simp at hfuel; omega)

theorem drainChecked_eq (stack : List Char) :
    ∀ (output : List Token) (fuel : Nat), stack.length < fuel →
      drainChecked fuel stack.reverse output = .ret (drain stack output) := by
  induction stack with
  | nil =>
    intro output fuel hfuel
    obtain ⟨fuel, rfl⟩ : ∃ f, fuel = f + 1 := ⟨fuel - 1, by omega⟩
    simp [drainChecked, drain]
  | cons top stack ih =>
    intro output fuel hfuel
    obtain ⟨fuel, rfl⟩ : ∃ f, fuel = f + 1 := ⟨fuel - 1, by omega⟩
    have hpos : (top :: stack).reverse.length > 0 := by simp
    rw [drainChecked, if_pos hpos, index_top, sliceTo_top]
    simp only [drain]
    split
    · rfl
    · exact ih _ fuel (by simp at hfuel; omega)
theorem scanLoopChecked_eq (expr : List Char) (fuel : Nat) :
    ∀ (i : Nat) (output : List Token) (stack : List Char), expr.length - i < fuel →
      scanLoopChecked expr fuel i output stack.reverse =
        match scan (expr.drop i) output stack with
        | some (.ok (o, s)) => .ret (.ok (o, s.reverse))
        | some (.error e) => .ret (.error e)
        | none => .outOfFuel := by
  induction fuel with
  | zero => intro i output stack h; exact absurd h (Nat.not_lt_zero _)
  | succ fuel ih =>
    intro i output stack hfuel
    cases hdrop : expr.drop i with
    | nil =>
      have hge : ¬ i < expr.length := Nat.not_lt.mpr (List.drop_eq_nil_iff.mp hdrop)
      rw [scanLoopChecked, if_neg hge, scan_nil]
    | cons ch rest =>
      obtain ⟨hlt, hget, hnext⟩ := drop_cons_facts hdrop
      have hfuel' : expr.length - (i + 1) < fuel := by omega
      rw [scanLoopChecked, if_pos hlt, hget, scan_cons]
      simp only
      split
      · -- a literal
        obtain ⟨i', h1, h2, h3⟩ := readNumberChecked_eq expr rest i [ch] expr.length hnext
          (by rw [← hnext, List.length_drop]; omega)
        rw [h1]
        simp only
        rw [← h2]
        exact ih (i' + 1) _ stack (by omega)
      · split
        · rename_i hopen
          have := ih (i + 1) output (ch :: stack) hfuel'
          rw [hnext, List.reverse_cons] at this
          exact this
        · split
          · rw [popToParenChecked_eq stack output _ (by simp)]
            rcases hp : popToParen stack output with ⟨found, stack', output'⟩
            cases found with
            | true =>
              simp only
              have := ih (i + 1) output' stack' hfuel'
              rw [hnext] at this
              exact this
            | false => rfl
          · split
            · rw [popOperatorsChecked_eq ch stack output _ (by simp)]
              simp only
              have := ih (i + 1) (popOperators ch stack output).2
                (ch :: (popOperators ch stack output).1) hfuel'
              rw [hnext, List.reverse_cons] at this
              exact this
            · rfl

theorem infixToPostfixChecked_eq (expr : List Char) :
    infixToPostfixChecked expr =
      match infixToPostfix expr with
      | some r => .ret r
      | none => .outOfFuel := by
  have hscan := scanLoopChecked_eq expr (expr.length + 1) 0 [] [] (by simp)
  rw [List.drop_zero, List.reverse_nil] at hscan
  have hdef : infixToPostfix expr =
      match scan expr [] [] with
      | none => none
      | some (.error e) => some (.error e)
      | some (.ok (output, stack)) => some (drain stack output) := rfl
  unfold infixToPostfixChecked
  rw [hscan, hdef]
  cases scan expr [] [] with
  | none => rfl
  | some r =>
    cases r with
    | error e => rfl
    | ok p =>
      obtain ⟨o, s⟩ := p
      simp only
      exact drainChecked_eq s o _ (by simp)

theorem evalTokensChecked_eq (lib : Float64Lib) (tokens : List Token) :
    ∀ stack : List Token, evalTokensChecked lib tokens stack.reverse =
      .ret (match evalTokens lib tokens stack with
        | .ok s => .ok s.reverse
        | .error e => .error e) := by
  induction tokens with
  | nil => intro stack; rfl
  | cons token rest ih =>
    intro stack
    rw [evalTokensChecked, evalTokens.eq_def]
    simp only
    split
    · match stack with
      | [] => rfl
      | [_] => rfl
      | bStr :: aStr :: stack' =>
        have hlen : ¬ (bStr :: aStr :: stack').reverse.length < 2 := by simp
        rw [if_neg hlen, index_top, index_second, sliceTo_second]
        simp only
        cases lib.parseFloat aStr with
        | none => rfl
        | some a =>
          cases lib.parseFloat bStr with
          | none => rfl
          | some b =>
            simp only
            cases applyOperator lib token a b with
            | error e => rfl
            | ok res =>
              simp only
              have := ih (lib.sprint res :: stack')
              rw [List.reverse_cons] at this
              exact this
    · have := ih (token :: stack)
      rw [List.reverse_cons] at this
      exact this

theorem evaluateManuallyChecked_eq (lib : Float64Lib) (expr : List Char) :
    evaluateManuallyChecked lib expr =
      match evaluateManually lib expr with
      | some r => .ret r
      | none => .outOfFuel := by
  unfold evaluateManuallyChecked evaluateManually
  rw [infixToPostfixChecked_eq]
  cases infixToPostfix expr with
  | none => rfl
  | some r =>
    cases r with
    | error e => rfl
    | ok tokens =>
      simp only
      have h := evalTokensChecked_eq lib tokens []
      rw [List.reverse_nil] at h
      rw [h]
      unfold evaluatePostfix
      cases evalTokens lib tokens [] with
      | error e => rfl
      | ok stack =>
        match stack with
        | [] => rfl
        | [s] =>
          simp only [List.reverse_singleton, List.length_singleton, ne_eq, not_true_eq_false,
            if_false]
          have : index [s] 0 = some s := by simp [index]
          rw [this]
          simp only
          cases lib.parseFloat s <;> rfl
        | a :: b :: rest =>
          have : (a :: b :: rest).reverse.length ≠ 1 := by simp
          simp only [if_pos this]

theorem evaluateChecked_eq (lib : Float64Lib) (expr : List Char) :
    evaluateChecked lib expr =
      match evaluate lib expr with
      | some r => .ret r
      | none => .outOfFuel := by
  unfold evaluateChecked evaluate simpleEvaluate
  simp only
  split
  · rfl
  · rw [evaluateManuallyChecked_eq]
    cases evaluateManually lib (removeSpaces expr) with
    | none => rfl
    | some r => cases r <;> rfl

/-- C13: `evaluate` is total and free of panics: for every input string the
code with checked indexing returns, without an index or slice out of range
in `infixToPostfix` or `evaluateManually` (`stack[len-1]`, `stack[len-2]`,
`stack[0]`, `expr[i+1]`) and without running out of fuel, and what it returns
is a number or an error, the result of `evaluate`; the same holds of
`infixToPostfix` on its own. -/
theorem evaluate_total_panic_free (lib : Float64Lib) (expr : List Char) :
    (∃ r : Except CalcError lib.F,
      evaluateChecked lib expr = .ret r ∧ evaluate lib expr = some r) ∧
    (∃ p : Except CalcError (List Token),
      infixToPostfixChecked expr = .ret p ∧ infixToPostfix expr = some p) := by
  constructor
  · obtain ⟨r, hr⟩ := Option.isSome_iff_exists.mp (evaluate_isSome lib expr)
    exact ⟨r, by rw [evaluateChecked_eq, hr], hr⟩
  · obtain ⟨p, hp⟩ := Option.isSome_iff_exists.mp (infixToPostfix_isSome expr)
    exact ⟨p, by rw [infixToPostfixChecked_eq, hp], hp⟩

end Calc
